import Mathlib

/-!
Verification development for the redcon RESP server core (src/redcon.go).

Bytes are modelled as `Nat` values (the parser only ever compares bytes
against ASCII constants and digit ranges, and copies payload bytes
opaquely, so no modular arithmetic arises).  Byte constants used below:

  9  TAB   10 LF ( n)   13 CR ( r)   32 space   34 quote   36 dollar
  42 star  43 plus      45 minus    48 zero     49 one     57 nine
  58 colon 79 letter O  75 letter K  92 backslash

Go slices `b[i:j]` become `List.take`/`List.drop`; the cursor-based scans
of `reader.ReadCommands` become recursions over the unconsumed suffix.
-/

/-- Protocol errors raised by the parser (`errProtocol` values in the Go
source). `expectedDollar c` carries the offending byte, mirroring
`"expected '$', got '<c>'"`. -/
inductive PErr where
  | unbalancedQuotes
  | invalidBulk
  | invalidMulti
  | expectedDollar (c : Nat)
deriving DecidableEq, Repr

/-- Result of a sub-parse of one syntactic unit inside
`reader.ReadCommands`: a hard protocol error, an incomplete unit
(`pending`, the Go `break outer2` / scan-ran-off-the-buffer paths), or a
parsed value together with the unconsumed rest of the buffer. -/
inductive PartRes (α : Type) where
  | err (e : PErr)
  | pending
  | done (val : α) (rest : List Nat)
deriving DecidableEq, Repr

/-- Split a byte list at the first LF (10): returns the bytes before it and
the bytes after it.  Models the Go scans `for i ...; if b[i] == '\n'`. -/
def splitNL : List Nat → Option (List Nat × List Nat)
  | [] => none
  | c :: rest =>
    if c = 10 then some ([], rest)
    else
      match splitNL rest with
      | none => none
      | some (pre, after) => some (c :: pre, after)

/-- The general digit loop of `parseInt` (redcon.go:637-644): accumulates
`n = n*10 + (b[i]-'0')`, failing on any non-digit. -/
def parseIntLoop : Nat → List Nat → Option Nat
  | n, [] => some n
  | n, d :: r => if d < 48 ∨ 57 < d then none else parseIntLoop (n * 10 + (d - 48)) r

/-- `parseInt` (redcon.go:626-645): fast paths for 1- and 2-byte digit
strings, falling back to the general loop (which accepts the empty string
as 0 — the fact behind claim C10). -/
def parseInt (b : List Nat) : Option Nat :=
  match b with
  | [d] => if 48 ≤ d ∧ d ≤ 57 then some (d - 48) else parseIntLoop 0 [d]
  | [d1, d2] =>
    if 48 ≤ d1 ∧ d1 ≤ 57 ∧ 48 ≤ d2 ∧ d2 ≤ 57 then some ((d1 - 48) * 10 + (d2 - 48))
    else parseIntLoop 0 [d1, d2]
  | l => parseIntLoop 0 l

/-- Escape resolution inside a quoted inline argument
(redcon.go:493-501): `\n`, `\r`, `\t` become the control byte, any other
escaped byte is passed through literally. -/
def escByte (c : Nat) : Nat :=
  if c = 110 then 10 else if c = 114 then 13 else if c = 116 then 9 else c

/-- The inline-command tokenizer (redcon.go:467-524).  The Go code scans
`line` with an index `i`, restarting (`continue outer`) with the line
truncated past each separator / quote event; since when `quote` is false
every non-restarting step appends the scanned byte to `nline`, the index
`i` always equals `nline.length` there, so the `i != 0` opening-quote
check is `cur ≠ []`.  The final `if len(line) > 0 { args = append(args,
line) }` pushes the residue of the current segment, which (no separator
was found in it) equals the accumulated `cur`. -/
def ilLoop (args : List (List Nat)) (cur : List Nat) (quote escape : Bool) :
    List Nat → Except PErr (List (List Nat))
  | [] =>
    if quote then .error .unbalancedQuotes
    else if cur = [] then .ok args else .ok (args ++ [cur])
  | c :: rest =>
    if quote then
      if escape then ilLoop args (cur ++ [escByte c]) true false rest
      else if c = 34 then
        -- closing quote: push the argument; the next byte must be a space
        -- or the end of the line (redcon.go:502-509)
        match rest with
        | [] => .ok (args ++ [cur])
        | c2 :: _ =>
          if c2 = 32 then ilLoop (args ++ [cur]) [] false false rest
          else .error .unbalancedQuotes
      else if c = 92 then ilLoop args cur true true rest
      else ilLoop args (cur ++ [c]) true false rest
    else
      if c = 32 then ilLoop (if cur = [] then args else args ++ [cur]) [] false false rest
      else if c = 34 then
        if cur = [] then ilLoop args [] true false rest
        else .error .unbalancedQuotes
      else ilLoop args (cur ++ [c]) false false rest

/-- Tokenize one inline line (already stripped of its terminator). -/
def parseLine (line : List Nat) : Except PErr (List (List Nat)) :=
  ilLoop [] [] false false line

/-- Parse one bulk string `$<L>\r\n<L bytes>\r\n` (redcon.go:552-584).
`rest` starts at the would-be `'$'`.  `pending` covers the Go paths where
the scan runs off the buffer (`i >= len(b)`, header LF not found, or
`i+ni2+2 >= len(b)`). -/
def parseBulk (rest : List Nat) : PartRes (List Nat) :=
  match rest with
  | [] => .pending
  | c :: r =>
    if c ≠ 36 then .err (.expectedDollar c)
    else
      match splitNL r with
      | none => .pending
      | some (hdr, after) =>
        -- b[i-1], the byte before the LF inside `'$' :: hdr ++ LF`
        if (36 :: hdr).getLast? ≠ some 13 then .err .invalidBulk
        else
          match parseInt hdr.dropLast with
          | none => .err .invalidBulk
          | some len =>
            -- Go also rejects ni2 < 0, impossible for a Nat result
            if after.length ≤ len + 1 then .pending
            else if after[len + 1]? ≠ some 10 ∨ after[len]? ≠ some 13 then
              .err .invalidBulk
            else .done (after.take len) (after.drop (len + 2))

/-- Read exactly `n` bulk strings (the `for j := 0; j < ni; j++` loop,
redcon.go:551-585). -/
def parseArgs : Nat → List Nat → PartRes (List (List Nat))
  | 0, rest => .done [] rest
  | n + 1, rest =>
    match parseBulk rest with
    | .err e => .err e
    | .pending => .pending
    | .done a r2 =>
      match parseArgs n r2 with
      | .err e => .err e
      | .pending => .pending
      | .done as r3 => .done (a :: as) r3

/-- Parse one RESP command `*<N>\r\n` followed by `N` bulk strings
(redcon.go:536-596).  `b` starts at the `'*'`.  The count must satisfy
`N ≥ 1` (`ni <= 0` is `invalid multibulk length`). -/
def parseMulti (b : List Nat) : PartRes (List (List Nat)) :=
  match splitNL b with
  | none => .pending
  | some (pre, rest) =>
    if pre.getLast? ≠ some 13 then .err .invalidMulti
    else
      match parseInt ((pre.drop 1).dropLast) with
      | none => .err .invalidMulti
      | some n =>
        if n = 0 then .err .invalidMulti
        else parseArgs n rest

/-- The in-buffer command loop of `reader.ReadCommands` (redcon.go:450-607):
parse as many complete commands as the buffered bytes contain, dispatching
per command on its first byte (`'*'` = RESP, anything else = inline), and
return them with the unconsumed remainder.  A protocol error aborts the
whole call (the Go code returns before updating the cursors).  Blank
inline lines are consumed but produce no command.  The fuel argument only
bounds the number of commands; `parseCommands` supplies `b.length`, which
always suffices because every parsed command consumes at least one byte. -/
def pcF : Nat → List Nat → Except PErr (List (List (List Nat)) × List Nat)
  | _, [] => .ok ([], [])
  | 0, b => .ok ([], b)
  | f + 1, b@(c :: _) =>
    if c = 42 then
      match parseMulti b with
      | .err e => .error e
      | .pending => .ok ([], b)
      | .done args rest =>
        match pcF f rest with
        | .error e => .error e
        | .ok (cs, r) => .ok (args :: cs, r)
    else
      match splitNL b with
      | none => .ok ([], b)
      | some (pre, rest) =>
        -- strip an optional CR before the LF (redcon.go:461-466)
        let line := if pre.getLast? = some 13 then pre.dropLast else pre
        match parseLine line with
        | .error e => .error e
        | .ok args =>
          match pcF f rest with
          | .error e => .error e
          | .ok (cs, r) => .ok ((if args = [] then cs else args :: cs), r)

/-- All complete commands in a buffer, plus the unconsumed remainder. -/
def parseCommands (b : List Nat) : Except PErr (List (List (List Nat)) × List Nat) :=
  pcF b.length b

/-- Outcome of one `reader.ReadCommands` call. -/
inductive RRes where
  | cmds (cs : List (List (List Nat)))
  | perr (e : PErr)
  | eofR
  | ueofR
deriving DecidableEq, Repr

/-- `reader.ReadCommands` (redcon.go:450-625) over a modelled stream.
State is the unconsumed buffered bytes (`buf[start:end]`; the code resets
both cursors whenever the buffer is fully consumed, so `r.end > 0` iff
there are unconsumed bytes) plus the list of byte chunks future `Read`
calls will deliver, the stream reporting EOF once they run out.  Parse the
buffered bytes first; return on a protocol error (cursors untouched) or a
non-empty batch; otherwise read one chunk and retry.  On EOF:
`io.ErrUnexpectedEOF` if unconsumed bytes remain, terminal EOF otherwise
(redcon.go:609-624). -/
def readCommands : List Nat → List (List Nat) → RRes × List Nat × List (List Nat)
  | pending, [] =>
    match parseCommands pending with
    | .error e => (.perr e, pending, [])
    | .ok (cs, rest) =>
      if cs ≠ [] then (.cmds cs, rest, [])
      else (if rest = [] then .eofR else .ueofR, rest, [])
  | pending, ch :: chs =>
    match parseCommands pending with
    | .error e => (.perr e, pending, ch :: chs)
    | .ok (cs, rest) =>
      if cs ≠ [] then (.cmds cs, rest, ch :: chs)
      else readCommands (rest ++ ch) chs

/-- Repeated `ReadCommands` calls, collecting every returned batch until
terminal EOF.  `none` on any error or if the fuel (a bound on the number
of calls) runs out. -/
def drive : Nat → List Nat → List (List Nat) → Option (List (List (List Nat)))
  | 0, _, _ => none
  | fuel + 1, pending, chunks =>
    match readCommands pending chunks with
    | (.cmds cs, p2, ch2) =>
      match drive fuel p2 ch2 with
      | none => none
      | some out => some (cs ++ out)
    | (.eofR, _, _) => some []
    | (.perr _, _, _) => none
    | (.ueofR, _, _) => none

/-- ASCII decimal digits of `n`, most significant first (fuel-structured so
that it reduces in the kernel; any `fuel > n` gives the digits). -/
def natDecF : Nat → Nat → List Nat
  | 0, _ => []
  | f + 1, n => if n < 10 then [48 + n] else natDecF f (n / 10) ++ [48 + n % 10]

/-- ASCII decimal representation of a natural number. -/
def natDec (n : Nat) : List Nat := natDecF (n + 1) n

/-- ASCII decimal representation of an integer (`strconv.FormatInt`). -/
def intDec (n : Int) : List Nat :=
  if n < 0 then 45 :: natDec (-n).toNat else natDec n.toNat

/-- RESP encoding of one bulk-string argument: `$<len>\r\n<bytes>\r\n`. -/
def encodeArg (a : List Nat) : List Nat :=
  36 :: natDec a.length ++ 13 :: 10 :: (a ++ [13, 10])

/-- RESP encoding of one command: `*<N>\r\n` followed by its arguments. -/
def encodeCmd (args : List (List Nat)) : List Nat :=
  42 :: natDec args.length ++ 13 :: 10 :: (args.map encodeArg).flatten

/-- Concatenated encoding of a command sequence. -/
def encodeAll (cmds : List (List (List Nat))) : List Nat :=
  (cmds.map encodeCmd).flatten

/-- Well-formed command sequences: every command has at least one
argument (the `N ≥ 1` the RESP grammar requires). -/
def wfCmds (cmds : List (List (List Nat))) : Prop := ∀ c ∈ cmds, c ≠ []

/-- Writer errors: the `closed` sentinel set by `writer.Close`, or an I/O
error from the underlying stream (abstracted by a numeric tag). -/
inductive WErr where
  | closed
  | io (tag : Nat)
deriving DecidableEq, Repr

/-- The `writer` struct (redcon.go:649-653): the append buffer `b`, the
sticky error, and the bytes successfully written to the stream so far. -/
structure RWriter where
  b : List Nat
  err : Option WErr
  wrote : List Nat
deriving DecidableEq, Repr

/-- A fresh writer, as handed to a new connection. -/
def freshWriter : RWriter := { b := [], err := none, wrote := [] }

/-- `writer.WriteNull` (redcon.go:659-665): appends `$-1\r\n`. -/
def wWriteNull (w : RWriter) : RWriter × Option WErr :=
  match w.err with
  | some e => (w, some e)
  | none => ({ w with b := w.b ++ [36, 45, 49, 13, 10] }, none)

/-- `writer.WriteArrayStart` (redcon.go:666-674): appends `*<count>\r\n`. -/
def wWriteArrayStart (w : RWriter) (count : Int) : RWriter × Option WErr :=
  match w.err with
  | some e => (w, some e)
  | none => ({ w with b := w.b ++ 42 :: intDec count ++ [13, 10] }, none)

/-- `writer.WriteBulk` (redcon.go:676-686): appends `$<len>\r\n<s>\r\n`. -/
def wWriteBulk (w : RWriter) (s : List Nat) : RWriter × Option WErr :=
  match w.err with
  | some e => (w, some e)
  | none => ({ w with b := w.b ++ 36 :: natDec s.length ++ 13 :: 10 :: (s ++ [13, 10]) }, none)

/-- `writer.WriteBulkBytes` (redcon.go:688-698): same bytes as WriteBulk. -/
def wWriteBulkBytes (w : RWriter) (s : List Nat) : RWriter × Option WErr :=
  match w.err with
  | some e => (w, some e)
  | none => ({ w with b := w.b ++ 36 :: natDec s.length ++ 13 :: 10 :: (s ++ [13, 10]) }, none)

/-- `writer.WriteError` (redcon.go:715-723): appends `-<msg>\r\n`. -/
def wWriteError (w : RWriter) (msg : List Nat) : RWriter × Option WErr :=
  match w.err with
  | some e => (w, some e)
  | none => ({ w with b := w.b ++ 45 :: msg ++ [13, 10] }, none)

/-- `writer.WriteString` (redcon.go:725-737): appends `+<msg>\r\n`, with a
fast path for the exact string `OK` (bytes 79, 75). -/
def wWriteString (w : RWriter) (msg : List Nat) : RWriter × Option WErr :=
  match w.err with
  | some e => (w, some e)
  | none =>
    if msg = [79, 75] then ({ w with b := w.b ++ [43, 79, 75, 13, 10] }, none)
    else ({ w with b := w.b ++ 43 :: msg ++ [13, 10] }, none)

/-- `writer.WriteInt` (redcon.go:739-747): appends `:<num>\r\n`. -/
def wWriteInt (w : RWriter) (num : Int) : RWriter × Option WErr :=
  match w.err with
  | some e => (w, some e)
  | none => ({ w with b := w.b ++ 58 :: intDec num ++ [13, 10] }, none)

/-- `writer.Flush` (redcon.go:700-713).  `ioRes` is the outcome of the
single underlying `Write` call: `none` for success, `some tag` for an I/O
failure (which becomes the sticky error).  Sticky error short-circuits; an
empty buffer skips the stream write; on success the whole buffered region
is appended to the stream in one call and the buffer truncates to 0. -/
def wFlush (w : RWriter) (ioRes : Option Nat) : RWriter × Option WErr :=
  match w.err with
  | some e => (w, some e)
  | none =>
    if w.b = [] then (w, none)
    else
      match ioRes with
      | some tag => ({ w with err := some (.io tag) }, some (.io tag))
      | none => ({ w with wrote := w.wrote ++ w.b, b := [] }, none)

/-- `writer.Close` (redcon.go:749-759): sticky error short-circuits;
otherwise flush once (a flush failure becomes the result), then set the
sticky error to `closed` and report success. -/
def wClose (w : RWriter) (ioRes : Option Nat) : RWriter × Option WErr :=
  match w.err with
  | some e => (w, some e)
  | none =>
    match wFlush w ioRes with
    | (w2, some e) => (w2, some e)
    | (w2, none) => ({ w2 with err := some .closed }, none)

/-- One call against the writer facade, with its argument. -/
inductive WCall where
  | wstr (s : List Nat)
  | werrc (m : List Nat)
  | wint (n : Int)
  | wnull
  | wbulk (s : List Nat)
  | wbulkb (s : List Nat)
  | warr (k : Int)
deriving DecidableEq, Repr

/-- Dispatch one facade call to the writer, discarding the returned error
exactly as the `conn` wrapper methods do (redcon.go:361-381). -/
def applyWCall (w : RWriter) : WCall → RWriter
  | .wstr s => (wWriteString w s).1
  | .werrc m => (wWriteError w m).1
  | .wint n => (wWriteInt w n).1
  | .wnull => (wWriteNull w).1
  | .wbulk s => (wWriteBulk w s).1
  | .wbulkb s => (wWriteBulkBytes w s).1
  | .warr k => (wWriteArrayStart w k).1

/-- The per-call wire encodings as the specification states them
(spec section 4.2): `+s\r\n` (the `+OK\r\n` fast path produces the same
bytes), `-msg\r\n`, `:decimal(n)\r\n`, `$-1\r\n`,
`$decimal(len)\r\n<payload>\r\n`, `*decimal(k)\r\n`. -/
def encOf : WCall → List Nat
  | .wstr s => 43 :: s ++ [13, 10]
  | .werrc m => 45 :: m ++ [13, 10]
  | .wint n => 58 :: intDec n ++ [13, 10]
  | .wnull => [36, 45, 49, 13, 10]
  | .wbulk s => 36 :: natDec s.length ++ 13 :: 10 :: (s ++ [13, 10])
  | .wbulkb s => 36 :: natDec s.length ++ 13 :: 10 :: (s ++ [13, 10])
  | .warr k => 42 :: intDec k ++ [13, 10]

/-- What one handler invocation does, abstracting the user-supplied
handler: the replies it writes through the `Conn` facade, whether it calls
`Conn.Close` (which closes via `writer.Close`, redcon.go:350-354), and
whether it calls `Conn.Hijack` (which sets the `hj` flag,
redcon.go:387-390). -/
structure HAct where
  replies : List WCall
  doClose : Bool
  doHijack : Bool

/-- Apply a handler invocation to the writer: its replies in order, then
the optional `Close`.  The engine models a healthy stream, so flushes use
`ioRes = none`. -/
def runHandler (w : RWriter) (a : HAct) : RWriter :=
  let w1 := a.replies.foldl applyWCall w
  if a.doClose then (wClose w1 none).1 else w1

/-- How the engine loop of `handle` exits (redcon.go:290-338): normal
return (`nil`, the `errClosed` path), a protocol error, the hijacked
sentinel, clean EOF, `io.ErrUnexpectedEOF`, or a writer error. -/
inductive HRes where
  | okR
  | perrR (e : PErr)
  | hijackedR
  | eofErrR
  | ueofErrR
  | werrR (e : WErr)
deriving DecidableEq, Repr

/-- Per-connection engine state: the reader (unconsumed bytes + future
stream chunks), the writer, the hijacked flag, and — for stating delivery
properties — the batches handed to the handler so far. -/
structure EState where
  pending : List Nat
  chunks : List (List Nat)
  wr : RWriter
  hj : Bool
  delivered : List (List (List (List Nat)))
deriving DecidableEq, Repr

/-- The ASCII bytes of `"ERR Protocol error: "`, the prefix the engine
puts in front of the parser's message (`"ERR " + err.Error()` with
`errProtocol.Error() = "Protocol error: " + msg`, redcon.go:92-94,300). -/
def errPrefix : List Nat :=
  [69, 82, 82, 32, 80, 114, 111, 116, 111, 99, 111, 108, 32, 101, 114, 114, 111, 114, 58, 32]

/-- ASCII bytes of the short protocol-error messages (redcon.go:76-80,556). -/
def PErr.shortMsg : PErr → List Nat
  | .unbalancedQuotes =>
    -- "unbalanced quotes in request"
    [117, 110, 98, 97, 108, 97, 110, 99, 101, 100, 32, 113, 117, 111, 116, 101, 115, 32,
     105, 110, 32, 114, 101, 113, 117, 101, 115, 116]
  | .invalidBulk =>
    -- "invalid bulk length"
    [105, 110, 118, 97, 108, 105, 100, 32, 98, 117, 108, 107, 32, 108, 101, 110, 103, 116, 104]
  | .invalidMulti =>
    -- "invalid multibulk length"
    [105, 110, 118, 97, 108, 105, 100, 32, 109, 117, 108, 116, 105, 98, 117, 108, 107, 32,
     108, 101, 110, 103, 116, 104]
  | .expectedDollar c =>
    -- "expected '$', got '<c>'"
    [101, 120, 112, 101, 99, 116, 101, 100, 32, 39, 36, 39, 44, 32, 103, 111, 116, 32, 39] ++
      [c] ++ [39]

/-- The engine loop body of `handle` (redcon.go:290-338).  Each iteration:
exit with the hijacked sentinel if the flag is set; read commands; on a
protocol error write `-ERR Protocol error: <msg>\r\n` and flush, ignoring
both results, and return the error; on other read errors return them;
otherwise deliver the batch to the handler, then exit normally if the
writer was closed, propagate any other sticky writer error, flush, and
loop.  Fuel bounds the number of iterations; theorems always supply
enough. -/
def engineLoop (handler : List (List (List Nat)) → HAct) : Nat → EState → EState × HRes
  | 0, st => (st, .okR)
  | f + 1, st =>
    if st.hj then (st, .hijackedR)
    else
      match readCommands st.pending st.chunks with
      | (.perr e, p2, ch2) =>
        let w1 := (wWriteError st.wr (errPrefix ++ e.shortMsg)).1
        let w2 := (wFlush w1 none).1
        ({ st with pending := p2, chunks := ch2, wr := w2 }, .perrR e)
      | (.eofR, p2, ch2) => ({ st with pending := p2, chunks := ch2 }, .eofErrR)
      | (.ueofR, p2, ch2) => ({ st with pending := p2, chunks := ch2 }, .ueofErrR)
      | (.cmds cs, p2, ch2) =>
        let act := handler cs
        let st1 := { st with pending := p2, chunks := ch2,
                             delivered := st.delivered ++ [cs],
                             wr := runHandler st.wr act,
                             hj := st.hj || act.doHijack }
        match st1.wr.err with
        | some .closed => (st1, .okR)
        | some e => (st1, .werrR e)
        | none =>
          match wFlush st1.wr none with
          | (w2, some e) => ({ st1 with wr := w2 }, .werrR e)
          | (w2, none) => engineLoop handler f { st1 with wr := w2 }

/-- The two buffer pools (redcon.go:107-108), tracked by the metric the
release condition inspects: read buffers by length, write buffers by
capacity (`wrpool` stores `b[:0]`, so only the capacity survives). -/
structure Pools where
  rd : List Nat
  wrc : List Nat
deriving DecidableEq, Repr

/-- `defaultBufLen` and `defaultPoolSize` (redcon.go:83-86). -/
def defaultBufLen : Nat := 4 * 1024

def defaultPoolSize : Nat := 64

/-- The pools as `NewServer` preallocates them (redcon.go:123-127):
64 read buffers of exactly `defaultBufLen` bytes, no write buffers. -/
def initialPools : Pools :=
  { rd := List.replicate defaultPoolSize defaultBufLen, wrc := [] }

/-- The buffer-release step on a non-hijack close (redcon.go:280-287):
the read buffer returns iff the pool has fewer than 64 entries and the
buffer length is strictly below `defaultBufLen`; the write buffer returns
iff the pool has fewer than 64 entries and its capacity is strictly below
`defaultBufLen`. -/
def poolClose (p : Pools) (rdLen wrCap : Nat) : Pools :=
  { rd := if p.rd.length < defaultPoolSize ∧ rdLen < defaultBufLen then p.rd ++ [rdLen] else p.rd,
    wrc :=
      if p.wrc.length < defaultPoolSize ∧ wrCap < defaultBufLen then p.wrc ++ [wrCap]
      else p.wrc }

/-- The final error value the `CloseObserver` receives (redcon.go:270-279):
`io.EOF` is mapped to `nil`; everything else — including the `errHijacked`
sentinel — is passed through. -/
inductive FinalErr where
  | hijackedE
  | protoE (e : PErr)
  | ueofE
  | writerE (e : WErr)
deriving DecidableEq, Repr

/-- The observer argument computed from the loop result. -/
def finishObs : HRes → Option FinalErr
  | .okR => none
  | .eofErrR => none
  | .hijackedR => some .hijackedE
  | .perrR e => some (.protoE e)
  | .ueofErrR => some .ueofE
  | .werrR e => some (.writerE e)

/-- The deferred close path of `handle` (redcon.go:266-289): close the
stream unless hijacked; invoke the observer with `finishObs`; return the
buffers to the pools unless hijacked.  Yields (stream closed?, observer
argument, new pools). -/
def finish (p : Pools) (res : HRes) (rdLen wrCap : Nat) : Bool × Option FinalErr × Pools :=
  (res ≠ .hijackedR, finishObs res,
    if res = .hijackedR then p else poolClose p rdLen wrCap)

/-- State of a `hijackedConn` (redcon.go:392-395): the batch left over
from the triggering read, plus the underlying reader. -/
structure HjState where
  cmds : List (List (List Nat))
  pending : List Nat
  chunks : List (List Nat)
deriving DecidableEq, Repr

/-- `hijackedConn.ReadCommand` (redcon.go:420-431), verbatim: if queued
commands remain, pop the first; otherwise the Go method calls *itself*
without reading anything.  Modelled with fuel; `none` means the fuel ran
out, and the recursion consumes fuel without changing the state. -/
def hjReadCommand : Nat → HjState → Option (List (List Nat) × HjState)
  | 0, _ => none
  | f + 1, st =>
    match st.cmds with
    | c :: rest => some (c, { st with cmds := rest })
    | [] => hjReadCommand f st

/-- `hijackedConn.ReadCommandBytes` (redcon.go:401-418): pop a queued
command if any; otherwise read more commands via the parser, queue them,
and retry.  Parser errors and EOF surface as `none` here (the claim under
test concerns termination of the refill path). -/
def hjReadCommandBytes : Nat → HjState → Option (List (List Nat) × HjState)
  | 0, _ => none
  | f + 1, st =>
    match st.cmds with
    | c :: rest => some (c, { st with cmds := rest })
    | [] =>
      match readCommands st.pending st.chunks with
      | (.cmds cs, p2, ch2) => hjReadCommandBytes f { cmds := cs, pending := p2, chunks := ch2 }
      | _ => none

/-! ### Basic facts about the scan and digit helpers -/

theorem splitNL_eq_none {b : List Nat} (h : 10 ∉ b) : splitNL b = none := by
  induction b with
  | nil => rfl
  | cons c rest ih =>
    simp only [List.mem_cons, not_or] at h
    have hc : ¬ c = 10 := fun hh => h.1 hh.symm
    simp only [splitNL, if_neg hc, ih h.2]

theorem splitNL_parts : ∀ {b pre after : List Nat}, splitNL b = some (pre, after) →
    b = pre ++ 10 :: after ∧ 10 ∉ pre := by
  intro b
  induction b with
  | nil => intro pre after h; simp [splitNL] at h
  | cons c rest ih =>
    intro pre after h
    by_cases hc : c = 10
    · subst hc
      simp only [splitNL, if_true, eq_self_iff_true, Option.some.injEq, Prod.mk.injEq] at h
      obtain ⟨h1, h2⟩ := h
      subst h1; subst h2
      exact ⟨rfl, by simp⟩
    · simp only [splitNL, if_neg hc] at h
      cases hs : splitNL rest with
      | none => rw [hs] at h; cases h
      | some pr =>
        obtain ⟨pre2, after2⟩ := pr
        rw [hs] at h
        simp only [Option.some.injEq, Prod.mk.injEq] at h
        obtain ⟨h1, h2⟩ := h
        subst h2
        obtain ⟨hb, hmem⟩ := ih hs
        subst h1
        constructor
        · rw [hb, List.cons_append]
        · simp only [List.mem_cons, not_or]
          exact ⟨fun hh => hc hh.symm, hmem⟩

theorem splitNL_append {xs : List Nat} (ys : List Nat) (h : 10 ∉ xs) :
    splitNL (xs ++ 10 :: ys) = some (xs, ys) := by
  induction xs with
  | nil => simp [splitNL]
  | cons c rest ih =>
    simp only [List.mem_cons, not_or] at h
    have hc : ¬ c = 10 := fun hh => h.1 hh.symm
    rw [List.cons_append]
    simp only [splitNL, if_neg hc, ih h.2]

theorem parseIntLoop_append (a : Nat) (xs ys : List Nat) :
    parseIntLoop a (xs ++ ys) =
      match parseIntLoop a xs with
      | none => none
      | some m => parseIntLoop m ys := by
  induction xs generalizing a with
  | nil => simp [parseIntLoop]
  | cons d r ih =>
    simp only [List.cons_append, parseIntLoop]
    by_cases hd : d < 48 ∨ 57 < d
    · simp [hd]
    · simp only [if_neg hd]
      exact ih _

/-- `natDecF` is independent of the fuel once the fuel exceeds the number. -/
theorem natDecF_stable : ∀ f g n, n < f → n < g → natDecF f n = natDecF g n := by
  intro f
  induction f with
  | zero => intro g n h; omega
  | succ f ih =>
    intro g n hf hg
    cases g with
    | zero => omega
    | succ g =>
      simp only [natDecF]
      by_cases h10 : n < 10
      · simp [h10]
      · have hd : n / 10 < f := by omega
        have hd2 : n / 10 < g := by omega
        simp only [if_neg h10, ih g (n / 10) hd hd2]

theorem natDec_eq_natDecF {f n : Nat} (h : n < f) : natDec n = natDecF f n :=
  natDecF_stable (n + 1) f n (by omega) h

theorem natDec_digits : ∀ n, ∀ d ∈ natDec n, 48 ≤ d ∧ d ≤ 57 := by
  have key : ∀ f n, n < f → ∀ d ∈ natDecF f n, 48 ≤ d ∧ d ≤ 57 := by
    intro f
    induction f with
    | zero => intro n h; omega
    | succ f ih =>
      intro n hn d hd
      simp only [natDecF] at hd
      by_cases h10 : n < 10
      · simp only [if_pos h10, List.mem_singleton] at hd
        omega
      · simp only [if_neg h10, List.mem_append, List.mem_singleton] at hd
        rcases hd with hd | hd
        · exact ih (n / 10) (by omega) d hd
        · have := Nat.mod_lt n (show 0 < 10 by omega)
          omega
  intro n
  exact key (n + 1) n (by omega)

theorem natDec_not_mem_10 (n : Nat) : 10 ∉ natDec n := by
  intro h
  have := natDec_digits n 10 h
  omega

theorem natDec_not_mem_13 (n : Nat) : 13 ∉ natDec n := by
  intro h
  have := natDec_digits n 13 h
  omega

theorem natDec_ne_nil (n : Nat) : natDec n ≠ [] := by
  show natDecF (n + 1) n ≠ []
  simp only [natDecF]
  by_cases h10 : n < 10
  · simp [h10]
  · simp [h10]

theorem parseIntLoop_natDec : ∀ n a, parseIntLoop a (natDec n) =
    some (a * 10 ^ (natDec n).length + n) := by
  have key : ∀ f n a, n < f → parseIntLoop a (natDecF f n) =
      some (a * 10 ^ (natDecF f n).length + n) := by
    intro f
    induction f with
    | zero => intro n a h; omega
    | succ f ih =>
      intro n a hn
      by_cases h10 : n < 10
      · simp only [natDecF, if_pos h10, parseIntLoop,
          if_neg (show ¬ (48 + n < 48 ∨ 57 < 48 + n) by omega)]
        simp only [List.length_singleton, pow_one]
        congr 1
        omega
      · simp only [natDecF, if_neg h10]
        rw [parseIntLoop_append]
        have hdiv : n / 10 < f := by omega
        rw [ih (n / 10) a hdiv]
        simp only [parseIntLoop,
          if_neg (show ¬ (48 + n % 10 < 48 ∨ 57 < 48 + n % 10) by
            have := Nat.mod_lt n (show 0 < 10 by omega); omega)]
        simp only [List.length_append, List.length_singleton, pow_succ]
        congr 1
        have hmod := Nat.div_add_mod n 10
        have hm10 := Nat.mod_lt n (show 0 < 10 by omega)
        ring_nf
        omega
  intro n a
  exact key (n + 1) n a (by omega)

theorem parseInt_eq_loop : ∀ b, parseInt b = parseIntLoop 0 b := by
  intro b
  match b with
  | [] => rfl
  | [d] =>
    simp only [parseInt, parseIntLoop]
    by_cases h : 48 ≤ d ∧ d ≤ 57
    · rw [if_pos h, if_neg (by omega)]
      congr 1
      omega
    · rw [if_neg h]
  | [d1, d2] =>
    simp only [parseInt, parseIntLoop]
    by_cases h : 48 ≤ d1 ∧ d1 ≤ 57 ∧ 48 ≤ d2 ∧ d2 ≤ 57
    · rw [if_pos h, if_neg (by omega), if_neg (by omega)]
      congr 1
      omega
    · rw [if_neg h]
  | a :: b :: c :: r => rfl

theorem parseInt_natDec (n : Nat) : parseInt (natDec n) = some n := by
  rw [parseInt_eq_loop, parseIntLoop_natDec]
  simp

/-! ### Consumption bounds: every parsed unit consumes at least one byte -/

theorem parseBulk_rest_lt {rest a r2 : List Nat} (h : parseBulk rest = .done a r2) :
    r2.length < rest.length := by
  match rest with
  | [] => simp [parseBulk] at h
  | c :: r =>
    simp only [parseBulk] at h
    by_cases hc : c ≠ 36
    · rw [if_pos hc] at h; simp at h
    · rw [if_neg hc] at h
      cases hs : splitNL r with
      | none => rw [hs] at h; simp at h
      | some pr =>
        obtain ⟨hdr, after⟩ := pr
        rw [hs] at h
        dsimp only at h
        obtain ⟨hr, -⟩ := splitNL_parts hs
        by_cases h1 : (36 :: hdr).getLast? ≠ some 13
        · rw [if_pos h1] at h; simp at h
        · rw [if_neg h1] at h
          cases hp : parseInt hdr.dropLast with
          | none => rw [hp] at h; simp at h
          | some len =>
            rw [hp] at h
            dsimp only at h
            by_cases h2 : after.length ≤ len + 1
            · rw [if_pos h2] at h; simp at h
            · rw [if_neg h2] at h
              by_cases h3 : after[len + 1]? ≠ some 10 ∨ after[len]? ≠ some 13
              · rw [if_pos h3] at h; simp at h
              · rw [if_neg h3] at h
                injection h with h4 h5
                subst h5
                have hlen : after.length < r.length := by
                  rw [hr]; simp [List.length_append]; omega
                simp only [List.length_drop, List.length_cons]
                omega

theorem parseArgs_rest_le : ∀ n (rest args r3), parseArgs n rest = .done args r3 →
    r3.length ≤ rest.length := by
  intro n
  induction n with
  | zero =>
    intro rest args r3 h
    simp only [parseArgs] at h
    injection h with h1 h2
    subst h2
    exact le_rfl
  | succ n ih =>
    intro rest args r3 h
    simp only [parseArgs] at h
    cases hb : parseBulk rest with
    | err e => rw [hb] at h; simp at h
    | pending => rw [hb] at h; simp at h
    | done a r2 =>
      rw [hb] at h
      dsimp only at h
      cases ha : parseArgs n r2 with
      | err e => rw [ha] at h; simp at h
      | pending => rw [ha] at h; simp at h
      | done as r3x =>
        rw [ha] at h
        dsimp only at h
        injection h with h1 h2
        subst h2
        have hlt := parseBulk_rest_lt hb
        have hle := ih r2 as r3x ha
        omega

theorem parseMulti_rest_lt {b rest : List Nat} {args : List (List Nat)}
    (h : parseMulti b = .done args rest) : rest.length < b.length := by
  unfold parseMulti at h
  cases hs : splitNL b with
  | none => rw [hs] at h; simp at h
  | some pr =>
    obtain ⟨pre, r0⟩ := pr
    rw [hs] at h
    dsimp only at h
    obtain ⟨hb, -⟩ := splitNL_parts hs
    by_cases h1 : pre.getLast? ≠ some 13
    · rw [if_pos h1] at h; simp at h
    · rw [if_neg h1] at h
      cases hp : parseInt ((pre.drop 1).dropLast) with
      | none => rw [hp] at h; simp at h
      | some n =>
        rw [hp] at h
        dsimp only at h
        by_cases h2 : n = 0
        · rw [if_pos h2] at h; simp at h
        · rw [if_neg h2] at h
          have hle := parseArgs_rest_le n r0 args rest h
          have : r0.length < b.length := by
            rw [hb]; simp [List.length_append]; omega
          omega

/-! ### The fuel in `pcF` is irrelevant once it covers the buffer length -/

theorem pcF_stable : ∀ N f g (b : List Nat), b.length ≤ N → b.length ≤ f → b.length ≤ g →
    pcF f b = pcF g b := by
  intro N
  induction N with
  | zero =>
    intro f g b hN _ _
    have : b = [] := List.length_eq_zero.mp (by omega)
    subst this
    cases f <;> cases g <;> rfl
  | succ N ih =>
    intro f g b hN hf hg
    match b with
    | [] => cases f <;> cases g <;> rfl
    | c :: t =>
      have hlen : (c :: t).length = t.length + 1 := rfl
      match f, g with
      | f + 1, g + 1 =>
        simp only [pcF]
        by_cases hc : c = 42
        · rw [if_pos hc, if_pos hc]
          cases hm : parseMulti (c :: t) with
          | err e => dsimp only
          | pending => dsimp only
          | done args rest =>
            have hlt := parseMulti_rest_lt hm
            have : pcF f rest = pcF g rest := by
              apply ih f g rest <;> simp_all <;> omega
            dsimp only
            rw [this]
        · rw [if_neg hc, if_neg hc]
          cases hs : splitNL (c :: t) with
          | none => dsimp only
          | some pr =>
            obtain ⟨pre, rest⟩ := pr
            obtain ⟨hb, -⟩ := splitNL_parts hs
            have hlt : rest.length < (c :: t).length := by
              rw [hb]; simp [List.length_append]; omega
            dsimp only
            cases hl : parseLine (if pre.getLast? = some 13 then pre.dropLast else pre) with
            | error e => dsimp only
            | ok args =>
              have : pcF f rest = pcF g rest := by
                apply ih f g rest <;> simp_all <;> omega
              dsimp only
              rw [this]

theorem parseCommands_eqF {f : Nat} {b : List Nat} (h : b.length ≤ f) :
    parseCommands b = pcF f b :=
  pcF_stable b.length b.length f b le_rfl le_rfl h

theorem parseCommands_nil : parseCommands [] = .ok ([], []) := rfl

theorem parseCommands_multi_done {t rest : List Nat} {args : List (List Nat)}
    (h : parseMulti (42 :: t) = .done args rest) :
    parseCommands (42 :: t) =
      match parseCommands rest with
      | .error e => .error e
      | .ok (cs, r) => .ok (args :: cs, r) := by
  have hlt := parseMulti_rest_lt h
  have h1 : parseCommands (42 :: t) = pcF (t.length + 1) (42 :: t) :=
    parseCommands_eqF (by simp)
  rw [h1]
  simp only [pcF, if_true, eq_self_iff_true, h]
  rw [← parseCommands_eqF (show rest.length ≤ t.length by simp at hlt; omega)]

theorem parseCommands_multi_pending {t : List Nat}
    (h : parseMulti (42 :: t) = .pending) :
    parseCommands (42 :: t) = .ok ([], 42 :: t) := by
  have h1 : parseCommands (42 :: t) = pcF (t.length + 1) (42 :: t) :=
    parseCommands_eqF (by simp)
  rw [h1]
  simp only [pcF, if_true, eq_self_iff_true, h]

theorem parseCommands_multi_err {t : List Nat} {e : PErr}
    (h : parseMulti (42 :: t) = .err e) :
    parseCommands (42 :: t) = .error e := by
  have h1 : parseCommands (42 :: t) = pcF (t.length + 1) (42 :: t) :=
    parseCommands_eqF (by simp)
  rw [h1]
  simp only [pcF, if_true, eq_self_iff_true, h]

theorem parseCommands_inline_none {c : Nat} {t : List Nat} (hc : ¬ c = 42)
    (h : splitNL (c :: t) = none) : parseCommands (c :: t) = .ok ([], c :: t) := by
  have h1 : parseCommands (c :: t) = pcF (t.length + 1) (c :: t) :=
    parseCommands_eqF (by simp)
  rw [h1]
  simp only [pcF, if_neg hc, h]

theorem parseCommands_inline_some {c : Nat} {t pre rest : List Nat} (hc : ¬ c = 42)
    (h : splitNL (c :: t) = some (pre, rest)) :
    parseCommands (c :: t) =
      match parseLine (if pre.getLast? = some 13 then pre.dropLast else pre) with
      | .error e => .error e
      | .ok args =>
        match parseCommands rest with
        | .error e => .error e
        | .ok (cs, r) => .ok ((if args = [] then cs else args :: cs), r) := by
  have hlt : rest.length ≤ t.length := by
    obtain ⟨hb, -⟩ := splitNL_parts h
    have : (c :: t).length = pre.length + 1 + rest.length := by
      rw [hb]; simp [List.length_append]; omega
    simp at this
    omega
  have h1 : parseCommands (c :: t) = pcF (t.length + 1) (c :: t) :=
    parseCommands_eqF (by simp)
  rw [h1]
  simp only [pcF, if_neg hc, h]
  cases hl : parseLine (if pre.getLast? = some 13 then pre.dropLast else pre) with
  | error e => dsimp only
  | ok args =>
    dsimp only
    rw [← parseCommands_eqF hlt]

/-! ### Parsing a complete encoded command consumes exactly its bytes -/

theorem parseBulk_encode (a T : List Nat) : parseBulk (encodeArg a ++ T) = .done a T := by
  have hshape : encodeArg a ++ T =
      36 :: ((natDec a.length ++ [13]) ++ 10 :: (a ++ 13 :: 10 :: T)) := by
    simp [encodeArg]
  rw [hshape]
  have h10 : 10 ∉ natDec a.length ++ [13] := by
    intro h
    rcases List.mem_append.mp h with h | h
    · exact natDec_not_mem_10 _ h
    · simp at h
  simp only [parseBulk]
  rw [if_neg (show ¬ (36 ≠ 36) by simp)]
  rw [splitNL_append _ h10]
  dsimp only
  rw [if_neg (show ¬ ((36 :: (natDec a.length ++ [13])).getLast? ≠ some 13) by
    rw [show (36 :: (natDec a.length ++ [13])) = (36 :: natDec a.length) ++ [13] by simp]
    rw [List.getLast?_concat]
    simp)]
  simp only [List.dropLast_concat]
  rw [parseInt_natDec]
  dsimp only
  have hlenafter : (a ++ 13 :: 10 :: T).length = a.length + 2 + T.length := by
    simp [List.length_append]
    omega
  rw [if_neg (show ¬ ((a ++ 13 :: 10 :: T).length ≤ a.length + 1) by omega)]
  have hidx1 : (a ++ 13 :: 10 :: T)[a.length + 1]? = some 10 := by
    rw [List.getElem?_append_right (by omega)]
    simp
  have hidx0 : (a ++ 13 :: 10 :: T)[a.length]? = some 13 := by
    rw [List.getElem?_append_right (by omega)]
    simp
  rw [if_neg (show ¬ ((a ++ 13 :: 10 :: T)[a.length + 1]? ≠ some 10 ∨
      (a ++ 13 :: 10 :: T)[a.length]? ≠ some 13) by
    rw [hidx1, hidx0]; simp)]
  congr 1
  · exact List.take_left a (13 :: 10 :: T)
  · rw [show a ++ 13 :: 10 :: T = (a ++ [13, 10]) ++ T by simp]
    have := List.drop_left (a ++ [13, 10]) T
    simp only [List.length_append, List.length_cons, List.length_nil] at this
    convert this using 2

theorem parseArgs_encode : ∀ (args : List (List Nat)) (T : List Nat),
    parseArgs args.length ((args.map encodeArg).flatten ++ T) = .done args T := by
  intro args
  induction args with
  | nil => intro T; simp [parseArgs]
  | cons a as ih =>
    intro T
    have hshape : ((a :: as).map encodeArg).flatten ++ T =
        encodeArg a ++ ((as.map encodeArg).flatten ++ T) := by
      simp
    rw [hshape]
    show parseArgs (as.length + 1) _ = _
    simp only [parseArgs, parseBulk_encode, ih T]

theorem parseMulti_encode {args : List (List Nat)} (h : args ≠ []) (T : List Nat) :
    parseMulti (encodeCmd args ++ T) = .done args T := by
  have hshape : encodeCmd args ++ T =
      (42 :: (natDec args.length ++ [13])) ++ 10 :: ((args.map encodeArg).flatten ++ T) := by
    simp [encodeCmd]
  rw [hshape]
  have h10 : 10 ∉ 42 :: (natDec args.length ++ [13]) := by
    intro hm
    rcases List.mem_cons.mp hm with hm | hm
    · simp at hm
    · rcases List.mem_append.mp hm with hm | hm
      · exact natDec_not_mem_10 _ hm
      · simp at hm
  simp only [parseMulti]
  rw [splitNL_append _ h10]
  dsimp only
  rw [if_neg (show ¬ ((42 :: (natDec args.length ++ [13])).getLast? ≠ some 13) by
    rw [show (42 :: (natDec args.length ++ [13])) = (42 :: natDec args.length) ++ [13] by simp]
    rw [List.getLast?_concat]
    simp)]
  have hdrop : ((42 :: (natDec args.length ++ [13])).drop 1).dropLast = natDec args.length := by
    simp [List.dropLast_concat]
  rw [hdrop, parseInt_natDec]
  dsimp only
  rw [if_neg (show ¬ (args.length = 0) by simp [h])]
  exact parseArgs_encode args T

/-! ### Proper prefixes of an encoded command leave the parser pending -/

theorem prefix_split {α : Type} {p x y : List α} (h : p <+: x ++ y) :
    p <+: x ∨ ∃ q, p = x ++ q ∧ q <+: y := by
  by_cases hl : p.length ≤ x.length
  · exact Or.inl (List.prefix_of_prefix_length_le h (List.prefix_append x y) hl)
  · right
    have hx : x <+: p :=
      List.prefix_of_prefix_length_le (List.prefix_append x y) h (by omega)
    obtain ⟨q, hq⟩ := hx
    refine ⟨q, hq.symm, ?_⟩
    obtain ⟨t, ht⟩ := h
    rw [← hq, List.append_assoc] at ht
    have := List.append_cancel_left ht
    exact ⟨t, this⟩

theorem prefix_cons_split {α : Type} {p y : List α} {c : α} (h : p <+: c :: y) :
    p = [] ∨ ∃ q, p = c :: q ∧ q <+: y := by
  match p with
  | [] => exact Or.inl rfl
  | d :: q =>
    right
    rw [List.cons_prefix_cons] at h
    exact ⟨q, by rw [h.1], h.2⟩

theorem parseBulk_prefix_pending {a q : List Nat} (hpre : q <+: encodeArg a)
    (hne : q ≠ encodeArg a) : parseBulk q = .pending := by
  have hshape : encodeArg a =
      36 :: ((natDec a.length ++ [13]) ++ 10 :: (a ++ [13, 10])) := by
    simp [encodeArg]
  rw [hshape] at hpre hne
  rcases prefix_cons_split hpre with hq | ⟨q1, hq, hq1⟩
  · subst hq; rfl
  · subst hq
    simp only [parseBulk]
    rw [if_neg (show ¬ (36 ≠ 36) by simp)]
    rcases prefix_split hq1 with hq2 | ⟨q2, hq2, hq3⟩
    · -- the prefix stops inside the `$<len>\r` header: no LF yet
      have h10 : 10 ∉ q1 := by
        intro hm
        have := hq2.subset hm
        rcases List.mem_append.mp this with hm2 | hm2
        · exact natDec_not_mem_10 _ hm2
        · simp at hm2
      rw [splitNL_eq_none h10]
    · -- the prefix covers the header; the payload is cut short
      subst hq2
      have h10 : 10 ∉ natDec a.length ++ [13] := by
        intro hm
        rcases List.mem_append.mp hm with hm2 | hm2
        · exact natDec_not_mem_10 _ hm2
        · simp at hm2
      rcases prefix_cons_split hq3 with hq4 | ⟨q3, hq4, hq5⟩
      · -- header LF still missing
        subst hq4
        rw [List.append_nil]
        rw [splitNL_eq_none h10]
      · subst hq4
        rw [splitNL_append _ h10]
        dsimp only
        rw [if_neg (show ¬ ((36 :: (natDec a.length ++ [13])).getLast? ≠ some 13) by
          rw [show (36 :: (natDec a.length ++ [13])) = (36 :: natDec a.length) ++ [13] by simp]
          rw [List.getLast?_concat]
          simp)]
        simp only [List.dropLast_concat]
        rw [parseInt_natDec]
        dsimp only
        have hlt : q3.length < (a ++ [13, 10]).length := by
          have hle := hq5.length_le
          rcases lt_or_eq_of_le hle with hlt | heq
          · exact hlt
          · exact absurd (hq5.eq_of_length heq) (fun hh => hne (by rw [hh]))
        have : q3.length ≤ a.length + 1 := by
          simp [List.length_append] at hlt
          omega
        rw [if_pos this]

theorem parseArgs_prefix_pending : ∀ (args : List (List Nat)) (q : List Nat),
    q <+: (args.map encodeArg).flatten → q ≠ (args.map encodeArg).flatten →
    parseArgs args.length q = .pending := by
  intro args
  induction args with
  | nil =>
    intro q hpre hne
    simp only [List.map_nil, List.flatten_nil, List.prefix_nil] at hpre
    exact absurd hpre (by simpa using hne)
  | cons a as ih =>
    intro q hpre hne
    have hshape : ((a :: as).map encodeArg).flatten = encodeArg a ++ (as.map encodeArg).flatten := by
      simp
    rw [hshape] at hpre hne
    rcases prefix_split hpre with hq | ⟨q2, hq, hq2⟩
    · by_cases heq : q = encodeArg a
      · -- exactly one whole argument present; the next bulk (or the count
        -- check) still starves
        subst heq
        have has : as ≠ [] := by
          intro h0
          subst h0
          simp at hne
        show parseArgs (as.length + 1) _ = _
        simp only [parseArgs]
        have hb : parseBulk (encodeArg a) = .done a [] := by
          have := parseBulk_encode a []
          simpa using this
        rw [hb]
        dsimp only
        match as, has with
        | a2 :: as2, _ => rfl
      · show parseArgs (as.length + 1) _ = _
        simp only [parseArgs]
        rw [parseBulk_prefix_pending hq heq]
    · subst hq
      have hne2 : q2 ≠ (as.map encodeArg).flatten := by
        intro hh
        exact hne (by rw [hh])
      show parseArgs (as.length + 1) _ = _
      simp only [parseArgs, parseBulk_encode]
      rw [ih q2 hq2 hne2]

theorem parseMulti_prefix_pending {args : List (List Nat)} {p : List Nat} (hargs : args ≠ [])
    (hpre : p <+: encodeCmd args) (hne : p ≠ encodeCmd args) :
    parseMulti p = .pending := by
  have hshape : encodeCmd args =
      (42 :: (natDec args.length ++ [13])) ++ 10 :: (args.map encodeArg).flatten := by
    simp [encodeCmd]
  rw [hshape] at hpre hne
  have h10 : 10 ∉ 42 :: (natDec args.length ++ [13]) := by
    intro hm
    rcases List.mem_cons.mp hm with hm | hm
    · simp at hm
    · rcases List.mem_append.mp hm with hm | hm
      · exact natDec_not_mem_10 _ hm
      · simp at hm
  rcases prefix_split hpre with hq | ⟨q, hq, hq1⟩
  · -- cut inside `*<N>\r`: no LF yet
    have h10p : 10 ∉ p := fun hm => h10 (hq.subset hm)
    simp only [parseMulti]
    rw [splitNL_eq_none h10p]
  · subst hq
    rcases prefix_cons_split hq1 with hq2 | ⟨q2, hq2, hq3⟩
    · -- header LF still missing
      subst hq2
      simp only [parseMulti]
      rw [List.append_nil, splitNL_eq_none h10]
    · subst hq2
      simp only [parseMulti]
      rw [splitNL_append _ h10]
      dsimp only
      rw [if_neg (show ¬ ((42 :: (natDec args.length ++ [13])).getLast? ≠ some 13) by
        rw [show (42 :: (natDec args.length ++ [13])) = (42 :: natDec args.length) ++ [13] by simp]
        rw [List.getLast?_concat]
        simp)]
      have hdrop : ((42 :: (natDec args.length ++ [13])).drop 1).dropLast
          = natDec args.length := by
        simp [List.dropLast_concat]
      rw [hdrop, parseInt_natDec]
      dsimp only
      rw [if_neg (show ¬ (args.length = 0) by simp [hargs])]
      exact parseArgs_prefix_pending args q2 hq3 (fun hh => hne (by rw [hh]))

/-! ### Parsing a boundary-aligned prefix of an encoded command stream -/

/-- `q` is the state of a partially received next command of `R`: either
nothing, or a proper prefix of the encoding of the first command of `R`. -/
def fragOf (R : List (List (List Nat))) (q : List Nat) : Prop :=
  q = [] ∨ ∃ a R2, R = a :: R2 ∧ q <+: encodeCmd a ∧ q ≠ encodeCmd a

theorem encodeCmd_head (args : List (List Nat)) :
    ∃ t, encodeCmd args = 42 :: t := ⟨_, rfl⟩

theorem parseCommands_prefix_pending {args : List (List Nat)} {p : List Nat}
    (hargs : args ≠ []) (hpre : p <+: encodeCmd args) (hne : p ≠ encodeCmd args) :
    parseCommands p = .ok ([], p) := by
  match p, hpre with
  | [], _ => rfl
  | c :: t, hpre =>
    obtain ⟨tt, htt⟩ := encodeCmd_head args
    rw [htt] at hpre
    have hc : c = 42 := (List.cons_prefix_cons.mp hpre).1
    subst hc
    exact parseCommands_multi_pending (parseMulti_prefix_pending hargs (by rw [htt]; exact hpre) hne)

theorem encodeAll_append (R1 R2 : List (List (List Nat))) :
    encodeAll (R1 ++ R2) = encodeAll R1 ++ encodeAll R2 := by
  simp [encodeAll]

theorem parseCommands_encode : ∀ (R1 : List (List (List Nat)))
    {R2 : List (List (List Nat))} {q : List Nat}, wfCmds (R1 ++ R2) → fragOf R2 q →
    parseCommands (encodeAll R1 ++ q) = .ok (R1, q) := by
  intro R1
  induction R1 with
  | nil =>
    intro R2 q hwf hq
    rcases hq with hq | ⟨a, R2x, hR2, hpre, hne⟩
    · subst hq; rfl
    · have ha : a ≠ [] := hwf a (by rw [hR2]; simp)
      have := parseCommands_prefix_pending ha hpre hne
      simpa using this
  | cons a R1x ih =>
    intro R2 q hwf hq
    have ha : a ≠ [] := hwf a (by simp)
    have hshape : encodeAll (a :: R1x) ++ q = encodeCmd a ++ (encodeAll R1x ++ q) := by
      simp [encodeAll]
    rw [hshape]
    obtain ⟨t, ht⟩ := encodeCmd_head a
    have hm := parseMulti_encode ha (encodeAll R1x ++ q)
    rw [ht] at hm ⊢
    simp only [List.cons_append] at hm ⊢
    rw [parseCommands_multi_done hm]
    have hwf2 : wfCmds (R1x ++ R2) := by
      intro c hc
      exact hwf c (by simpa using Or.inr (by simpa using hc))
    rw [ih hwf2 hq]

/-- Every prefix of an encoded command stream splits into the encodings of
fully covered commands followed by a partial next command. -/
theorem prefix_encodeAll_decompose : ∀ (R : List (List (List Nat))) (p : List Nat),
    p <+: encodeAll R →
    ∃ R1 R2 q, R = R1 ++ R2 ∧ p = encodeAll R1 ++ q ∧ fragOf R2 q := by
  intro R
  induction R with
  | nil =>
    intro p hp
    simp only [encodeAll, List.map_nil, List.flatten_nil, List.prefix_nil] at hp
    exact ⟨[], [], [], rfl, by simp [encodeAll, hp], Or.inl rfl⟩
  | cons a R ih =>
    intro p hp
    have hshape : encodeAll (a :: R) = encodeCmd a ++ encodeAll R := by
      simp [encodeAll]
    rw [hshape] at hp
    rcases prefix_split hp with hq | ⟨q, hq, hq1⟩
    · by_cases heq : p = encodeCmd a
      · exact ⟨[a], R, [], rfl, by simp [encodeAll, heq], Or.inl rfl⟩
      · exact ⟨[], a :: R, p, rfl, by simp [encodeAll],
          Or.inr ⟨a, R, rfl, hq, heq⟩⟩
    · subst hq
      obtain ⟨R1, R2, q2, hR, hp2, hpart⟩ := ih q hq1
      refine ⟨a :: R1, R2, q2, by rw [hR]; simp, ?_, hpart⟩
      rw [show encodeAll (a :: R1) = encodeCmd a ++ encodeAll R1 by simp [encodeAll]]
      rw [hp2, List.append_assoc]

theorem encodeAll_eq_nil {R : List (List (List Nat))} (h : encodeAll R = []) : R = [] := by
  cases R with
  | nil => rfl
  | cons a R2 =>
    exfalso
    have : encodeAll (a :: R2) = encodeCmd a ++ encodeAll R2 := by simp [encodeAll]
    rw [this] at h
    have : encodeCmd a = 42 :: (natDec a.length ++ 13 :: 10 :: (a.map encodeArg).flatten) := rfl
    simp [this] at h

theorem fragOf_encodeAll_eq {R2 : List (List (List Nat))} {q : List Nat}
    (h : fragOf R2 q) (heq : q = encodeAll R2) : R2 = [] ∧ q = [] := by
  rcases h with h | ⟨a, R2x, hR, hpre, hne⟩
  · subst h
    exact ⟨encodeAll_eq_nil heq.symm, rfl⟩
  · exfalso
    subst hR
    have h1 : q.length < (encodeCmd a).length :=
      lt_of_le_of_ne hpre.length_le (fun heq2 => hne (hpre.eq_of_length heq2))
    have h2 : (encodeCmd a).length ≤ q.length := by
      rw [heq, show encodeAll (a :: R2x) = encodeCmd a ++ encodeAll R2x by simp [encodeAll]]
      simp [List.length_append]
    omega

/-- Behaviour of one `ReadCommands` call mid-stream: with the buffered
bytes a prefix of the full encoded command stream and the chunks
supplying the remainder, the call returns clean EOF when nothing remains,
and otherwise a non-empty batch of leading commands, re-establishing the
same invariant for what is left. -/
theorem readCommands_spec : ∀ (chunks : List (List Nat)) (pending : List Nat)
    (R : List (List (List Nat))), wfCmds R → pending ++ chunks.flatten = encodeAll R →
    (R = [] → readCommands pending chunks = (.eofR, [], [])) ∧
    (R ≠ [] → ∃ cs R2 p2 ch2, readCommands pending chunks = (.cmds cs, p2, ch2) ∧
      cs ≠ [] ∧ cs ++ R2 = R ∧ wfCmds R2 ∧
      p2 ++ ch2.flatten = encodeAll R2 ∧ ch2.length ≤ chunks.length) := by
  intro chunks
  induction chunks with
  | nil =>
    intro pending R hwf heq
    simp only [List.flatten_nil, List.append_nil] at heq
    have hpre : pending <+: encodeAll R := by rw [heq]
    obtain ⟨R1, R2, q, hR, hp, hpart⟩ := prefix_encodeAll_decompose R pending hpre
    have hwf1 : wfCmds (R1 ++ R2) := by rw [← hR]; exact hwf
    have hparse : parseCommands pending = .ok (R1, q) := by
      rw [hp]; exact parseCommands_encode R1 hwf1 hpart
    have hqe : q = encodeAll R2 := by
      have h2 : encodeAll R1 ++ q = encodeAll R1 ++ encodeAll R2 := by
        rw [← hp, heq, hR, encodeAll_append]
      exact List.append_cancel_left h2
    by_cases hR1 : R1 = []
    · -- nothing parsed: the whole stream was consumed, so R is empty
      subst hR1
      obtain ⟨hR2, hq⟩ := fragOf_encodeAll_eq hpart hqe
      subst hR2
      have hRnil : R = [] := by rw [hR]; rfl
      subst hRnil
      have hpnil : pending = [] := by rw [hp, hq]; rfl
      subst hpnil
      exact ⟨fun _ => rfl, fun hne => absurd rfl hne⟩
    · constructor
      · intro hRnil
        rw [hRnil] at hR
        have := List.append_eq_nil.mp hR.symm
        exact absurd this.1 hR1
      · intro _
        refine ⟨R1, R2, q, [], ?_, hR1, hR.symm, ?_, ?_, by simp⟩
        · simp only [readCommands, hparse]
          rw [if_pos hR1]
        · intro c hc
          exact hwf1 c (by simp [hc])
        · simp [hqe]
  | cons ch chs ih =>
    intro pending R hwf heq
    have hpre : pending <+: encodeAll R := by
      refine ⟨(ch :: chs).flatten, heq⟩
    obtain ⟨R1, R2, q, hR, hp, hpart⟩ := prefix_encodeAll_decompose R pending hpre
    have hwf1 : wfCmds (R1 ++ R2) := by rw [← hR]; exact hwf
    have hparse : parseCommands pending = .ok (R1, q) := by
      rw [hp]; exact parseCommands_encode R1 hwf1 hpart
    have hqeq : q ++ (ch :: chs).flatten = encodeAll R2 := by
      have h2 : encodeAll R1 ++ (q ++ (ch :: chs).flatten)
          = encodeAll R1 ++ encodeAll R2 := by
        rw [← List.append_assoc, ← hp, heq, hR, encodeAll_append]
      exact List.append_cancel_left h2
    by_cases hR1 : R1 = []
    · -- no complete command buffered yet: read one chunk and retry
      subst hR1
      have hpq : pending = q := by rw [hp]; rfl
      subst hpq
      have hstep : readCommands pending (ch :: chs) = readCommands (pending ++ ch) chs := by
        simp only [readCommands, hparse]
        rw [if_neg (show ¬ (([] : List (List (List Nat))) ≠ []) by simp)]
      have heq2 : (pending ++ ch) ++ chs.flatten = encodeAll R := by
        rw [List.append_assoc]
        simpa using heq
      obtain ⟨conj1, conj2⟩ := ih (pending ++ ch) R hwf heq2
      constructor
      · intro hRnil
        rw [hstep]
        exact conj1 hRnil
      · intro hRne
        obtain ⟨cs, R2x, p2, ch2, h1, h2, h3, h4, h5, h6⟩ := conj2 hRne
        exact ⟨cs, R2x, p2, ch2, by rw [hstep]; exact h1, h2, h3, h4, h5, by simp; omega⟩
    · -- at least one complete command buffered: return the batch
      constructor
      · intro hRnil
        rw [hRnil] at hR
        have := List.append_eq_nil.mp hR.symm
        exact absurd this.1 hR1
      · intro _
        refine ⟨R1, R2, q, ch :: chs, ?_, hR1, hR.symm, ?_, hqeq, le_rfl⟩
        · simp only [readCommands, hparse]
          rw [if_pos hR1]
        · intro c hc
          exact hwf1 c (by simp [hc])

theorem drive_spec : ∀ (fuel : Nat) (R : List (List (List Nat)))
    (pending : List Nat) (chunks : List (List Nat)), wfCmds R →
    pending ++ chunks.flatten = encodeAll R → chunks.length + R.length < fuel →
    drive fuel pending chunks = some R := by
  intro fuel
  induction fuel with
  | zero => intro R pending chunks _ _ h; omega
  | succ f ih =>
    intro R pending chunks hwf heq hfuel
    obtain ⟨conj1, conj2⟩ := readCommands_spec chunks pending R hwf heq
    by_cases hR : R = []
    · subst hR
      simp only [drive, conj1 rfl]
    · obtain ⟨cs, R2, p2, ch2, h1, h2, h3, h4, h5, h6⟩ := conj2 hR
      simp only [drive, h1]
      have hlen : R.length = cs.length + R2.length := by rw [← h3]; simp
      have hcs : 1 ≤ cs.length := by
        cases cs with
        | nil => exact absurd rfl h2
        | cons x xs => simp
      rw [ih R2 p2 ch2 h4 h5 (by omega)]
      dsimp only
      rw [h3]

/-- C1: For every sequence of well-formed RESP commands (each with at
least one argument of arbitrary bytes), concatenated and cut at arbitrary
split points across successive stream reads, repeated `ReadCommands`
calls return exactly those commands in arrival order with every argument
byte-identical (first conjunct: driving the reader over any chunking of
the encoded stream yields exactly the original commands, then clean EOF);
and an incomplete command at the end of the buffered bytes is left
pending with no error and no bytes consumed (second conjunct). -/
theorem C1_resp_roundtrip :
    (∀ (cmds : List (List (List Nat))) (chunks : List (List Nat)),
      wfCmds cmds → chunks.flatten = encodeAll cmds →
      drive (chunks.length + cmds.length + 1) [] chunks = some cmds) ∧
    (∀ (args : List (List Nat)) (p : List Nat), args ≠ [] →
      p <+: encodeCmd args → p ≠ encodeCmd args →
      parseCommands p = .ok ([], p)) := by
  constructor
  · intro cmds chunks hwf hflat
    exact drive_spec (chunks.length + cmds.length + 1) cmds [] chunks hwf
      (by simpa using hflat) (by omega)
  · intro args p hargs hpre hne
    exact parseCommands_prefix_pending hargs hpre hne

/-- Witness for C1 at a concrete pipelined stream: the two commands
`foo bar` and `P`, RESP-encoded and split across three reads at positions
that cut both a length header and a payload, are returned intact; and the
truncated first command alone is left pending without error. -/
theorem C1_resp_roundtrip_witness :
    drive 6 []
        [[42, 50, 13, 10, 36, 51], [13, 10, 102, 111, 111, 13],
         [10, 36, 51, 13, 10, 98, 97, 114, 13, 10, 42, 49, 13, 10, 36, 49, 13, 10, 80, 13, 10]]
      = some [[[102, 111, 111], [98, 97, 114]], [[80]]] ∧
    parseCommands [42, 49, 13, 10, 36, 51, 13, 10, 102]
      = .ok ([], [42, 49, 13, 10, 36, 51, 13, 10, 102]) := by
  constructor
  · exact C1_resp_roundtrip.1 [[[102, 111, 111], [98, 97, 114]], [[80]]]
      [[42, 50, 13, 10, 36, 51], [13, 10, 102, 111, 111, 13],
       [10, 36, 51, 13, 10, 98, 97, 114, 13, 10, 42, 49, 13, 10, 36, 49, 13, 10, 80, 13, 10]]
      (by unfold wfCmds; decide) (by decide)
  · exact C1_resp_roundtrip.2 [[102, 111, 111]] [42, 49, 13, 10, 36, 51, 13, 10, 102]
      (by decide) (by decide) (by decide)

/-! ### Writer: per-call encodings and the sticky error -/

theorem applyWCall_ok {w : RWriter} (hw : w.err = none) (c : WCall) :
    applyWCall w c = { w with b := w.b ++ encOf c } := by
  cases c with
  | wstr s =>
    by_cases hs : s = [79, 75]
    · subst hs
      simp [applyWCall, wWriteString, hw, encOf]
    · simp [applyWCall, wWriteString, hw, hs, encOf]
  | werrc m => simp [applyWCall, wWriteError, hw, encOf]
  | wint n => simp [applyWCall, wWriteInt, hw, encOf]
  | wnull => simp [applyWCall, wWriteNull, hw, encOf]
  | wbulk s => simp [applyWCall, wWriteBulk, hw, encOf]
  | wbulkb s => simp [applyWCall, wWriteBulkBytes, hw, encOf]
  | warr k => simp [applyWCall, wWriteArrayStart, hw, encOf]

theorem foldl_applyWCall : ∀ (calls : List WCall) (w : RWriter), w.err = none →
    calls.foldl applyWCall w = { w with b := w.b ++ (calls.map encOf).flatten } := by
  intro calls
  induction calls with
  | nil => intro w hw; simp
  | cons c cs ih =>
    intro w hw
    rw [List.foldl_cons, applyWCall_ok hw]
    rw [ih _ (by simp [hw])]
    simp [List.append_assoc]

/-- C2: On a fresh writer, any sequence of facade calls followed by one
`Flush` writes to the stream exactly the concatenation of the per-call
RESP encodings of spec section 4.2 (`encOf`), leaving the buffer empty
and no error (first conjunct); and `Flush` on a healthy writer with a
non-empty buffer writes the whole buffered region to the stream in one
call and truncates the buffer to length 0 (second conjunct). -/
theorem C2_writer_encoding :
    (∀ calls : List WCall,
      wFlush (calls.foldl applyWCall freshWriter) none
        = ({ b := [], err := none, wrote := (calls.map encOf).flatten }, none)) ∧
    (∀ w : RWriter, w.err = none → w.b ≠ [] →
      wFlush w none = ({ w with wrote := w.wrote ++ w.b, b := [] }, none)) := by
  constructor
  · intro calls
    rw [foldl_applyWCall calls freshWriter rfl]
    show wFlush { b := (calls.map encOf).flatten, err := none, wrote := [] } none = _
    by_cases hb : (calls.map encOf).flatten = []
    · simp [wFlush, hb]
    · simp [wFlush, hb]
  · intro w hw hb
    simp [wFlush, hw, hb]

/-- Witness for C2: `WriteString "OK"`, `WriteInt (-5)`, `WriteNull`
followed by `Flush` produce exactly `+OK\r\n:-5\r\n$-1\r\n`; and a flush
of a concrete dirty buffer empties it into the stream. -/
theorem C2_writer_encoding_witness :
    wFlush ([WCall.wstr [79, 75], WCall.wint (-5), WCall.wnull].foldl applyWCall freshWriter) none
      = ({ b := [], err := none,
           wrote := [43, 79, 75, 13, 10, 58, 45, 53, 13, 10, 36, 45, 49, 13, 10] }, none) ∧
    wFlush { b := [1, 2], err := none, wrote := [3] } none
      = ({ b := [], err := none, wrote := [3, 1, 2] }, none) := by
  constructor
  · have h := C2_writer_encoding.1 [WCall.wstr [79, 75], WCall.wint (-5), WCall.wnull]
    rw [h]
    decide
  · have h := C2_writer_encoding.2 { b := [1, 2], err := none, wrote := [3] } rfl (by decide)
    rw [h]
    decide

/-- C7: once the writer's sticky error is set, every facade call and
`Flush`/`Close` is a no-op returning that same error (first conjunct; the
`conn` wrappers discard the returned value of every `Write*`, so within
the managed facade only `Close`, which forwards the writer's result,
surfaces it); `Close` on a healthy writer flushes the buffer once to the
stream, marks the sticky error `closed`, and reports success (second
conjunct); and every subsequent `Flush` is a no-op returning `closed`
(third conjunct). -/
theorem C7_sticky_writer :
    (∀ (w : RWriter) (e : WErr) (s : List Nat) (n k : Int), w.err = some e →
      wWriteString w s = (w, some e) ∧ wWriteError w s = (w, some e) ∧
      wWriteInt w n = (w, some e) ∧ wWriteNull w = (w, some e) ∧
      wWriteBulk w s = (w, some e) ∧ wWriteBulkBytes w s = (w, some e) ∧
      wWriteArrayStart w k = (w, some e) ∧ wFlush w none = (w, some e) ∧
      wClose w none = (w, some e)) ∧
    (∀ w : RWriter, w.err = none →
      wClose w none = ({ b := [], err := some .closed, wrote := w.wrote ++ w.b }, none)) ∧
    (∀ w : RWriter, w.err = some .closed → wFlush w none = (w, some .closed)) := by
  refine ⟨?_, ?_, ?_⟩
  · intro w e s n k hw
    refine ⟨?_, ?_, ?_, ?_, ?_, ?_, ?_, ?_, ?_⟩ <;>
      simp [wWriteString, wWriteError, wWriteInt, wWriteNull, wWriteBulk,
        wWriteBulkBytes, wWriteArrayStart, wFlush, wClose, hw]
  · intro w hw
    by_cases hb : w.b = []
    · simp [wClose, wFlush, hw, hb]
    · simp [wClose, wFlush, hw, hb]
  · intro w hw
    simp [wFlush, hw]

/-- Witness for C7 at a concrete stuck writer (sticky I/O error tag 7), a
concrete healthy writer, and a concrete closed writer. -/
theorem C7_sticky_writer_witness :
    wWriteString { b := [5], err := some (.io 7), wrote := [] } [65]
      = ({ b := [5], err := some (.io 7), wrote := [] }, some (.io 7)) ∧
    wClose { b := [1], err := none, wrote := [2] } none
      = ({ b := [], err := some .closed, wrote := [2, 1] }, none) ∧
    wFlush { b := [9], err := some .closed, wrote := [] } none
      = ({ b := [9], err := some .closed, wrote := [] }, some .closed) := by
  refine ⟨?_, ?_, ?_⟩
  · exact (C7_sticky_writer.1 _ (.io 7) [65] 0 0 rfl).1
  · have h := C7_sticky_writer.2.1 { b := [1], err := none, wrote := [2] } rfl
    rw [h]
    decide
  · exact C7_sticky_writer.2.2 _ rfl

/-! ### Engine loop: protocol errors, hijack, EOF -/

/-- C3: whenever `ReadCommands` reports a protocol error on a
non-hijacked connection, the engine appends the RESP error reply
`-ERR Protocol error: <message>\r\n` via `WriteError` and flushes it,
ignoring both results, and exits immediately returning the protocol
error; in particular the batches delivered to the handler do not change
after that point, and on a healthy writer the reply bytes are exactly
what reaches the stream. -/
theorem C3_protocol_error_path :
    ∀ (handler : List (List (List Nat)) → HAct) (f : Nat) (st : EState) (e : PErr)
      (p2 : List Nat) (ch2 : List (List Nat)),
      st.hj = false →
      readCommands st.pending st.chunks = (.perr e, p2, ch2) →
      engineLoop handler (f + 1) st =
        ({ st with
            pending := p2
            chunks := ch2
            wr := (wFlush (wWriteError st.wr (errPrefix ++ e.shortMsg)).1 none).1 }, .perrR e) ∧
      (engineLoop handler (f + 1) st).1.delivered = st.delivered ∧
      (st.wr.err = none →
        (engineLoop handler (f + 1) st).1.wr.wrote
          = st.wr.wrote ++ st.wr.b ++ (45 :: (errPrefix ++ e.shortMsg) ++ [13, 10])) := by
  intro handler f st e p2 ch2 hhj hread
  have hmain : engineLoop handler (f + 1) st =
      ({ st with
          pending := p2
          chunks := ch2
          wr := (wFlush (wWriteError st.wr (errPrefix ++ e.shortMsg)).1 none).1 }, .perrR e) := by
    simp only [engineLoop, hhj, Bool.false_eq_true, if_false, hread]
  refine ⟨hmain, by rw [hmain], ?_⟩
  intro hwerr
  rw [hmain]
  have hw1 : wWriteError st.wr (errPrefix ++ e.shortMsg)
      = ({ st.wr with b := st.wr.b ++ 45 :: (errPrefix ++ e.shortMsg) ++ [13, 10] }, none) := by
    simp [wWriteError, hwerr]
  rw [hw1]
  have hbne : st.wr.b ++ 45 :: (errPrefix ++ e.shortMsg) ++ [13, 10] ≠ [] := by
    simp
  simp [wFlush, hwerr, hbne, List.append_assoc]

/-- Witness for C3: the malformed stream `*a\r\n` triggers
`invalid multibulk length`; the engine writes the full RESP error reply
and stops with the protocol error, delivering nothing. -/
theorem C3_protocol_error_path_witness :
    engineLoop (fun _ => ⟨[], false, false⟩) 3 ⟨[42, 97, 13, 10], [], freshWriter, false, []⟩
      = (⟨[42, 97, 13, 10], [],
          ⟨[], none,
            45 :: (errPrefix ++ PErr.invalidMulti.shortMsg) ++ [13, 10]⟩, false, []⟩,
         .perrR .invalidMulti) ∧
    (engineLoop (fun _ => ⟨[], false, false⟩) 3
        ⟨[42, 97, 13, 10], [], freshWriter, false, []⟩).1.delivered = [] := by
  have h := C3_protocol_error_path (fun _ => ⟨[], false, false⟩) 2
    ⟨[42, 97, 13, 10], [], freshWriter, false, []⟩ .invalidMulti [42, 97, 13, 10] []
    rfl (by decide)
  obtain ⟨h1, h2, h3⟩ := h
  constructor
  · rw [h1]
    decide
  · exact h2

/-- C4 (amended): when the engine loop exits because the handler called
`Hijack`, the loop returns the hijacked sentinel as soon as it observes
the flag (first conjunct); the close path then does **not** close the
stream and does **not** touch the pools, but the `CloseObserver` receives
the hijacked sentinel itself — not "no error" (second conjunct): the only
results mapped to "no error" for the observer are normal exit and clean
EOF (third conjunct). -/
theorem C4_hijack_exit :
    (∀ (handler : List (List (List Nat)) → HAct) (f : Nat) (st : EState),
      st.hj = true → engineLoop handler (f + 1) st = (st, .hijackedR)) ∧
    (∀ (p : Pools) (l c : Nat), finish p .hijackedR l c = (false, some .hijackedE, p)) ∧
    (∀ res : HRes, finishObs res = none ↔ res = .okR ∨ res = .eofErrR) := by
  refine ⟨?_, ?_, ?_⟩
  · intro handler f st hhj
    simp only [engineLoop, hhj, if_true]
  · intro p l c
    simp [finish, finishObs]
  · intro res
    cases res <;> simp [finishObs]

/-- Witness for C4 (amended) at a concrete hijacked state. -/
theorem C4_hijack_exit_witness :
    engineLoop (fun _ => ⟨[], false, false⟩) 1 ⟨[], [], freshWriter, true, []⟩
      = (⟨[], [], freshWriter, true, []⟩, .hijackedR) ∧
    finish { rd := [], wrc := [] } .hijackedR 4096 64
      = (false, some .hijackedE, { rd := [], wrc := [] }) ∧
    (finishObs .eofErrR = none ↔ .eofErrR = HRes.okR ∨ .eofErrR = HRes.eofErrR) := by
  exact ⟨C4_hijack_exit.1 _ 0 _ rfl, C4_hijack_exit.2.1 _ 4096 64, C4_hijack_exit.2.2 .eofErrR⟩

/-- C4 counterexample: a full engine run in which the handler hijacks the
connection — the run exits with the hijacked sentinel, yet the observer
argument computed by the close path is the hijacked sentinel error, not
"no error" as the claim states (only `io.EOF` is mapped to nil,
redcon.go:275-278). -/
theorem C4_observer_counterexample :
    (engineLoop (fun _ => ⟨[], false, true⟩) 3
        ⟨[42, 49, 13, 10, 36, 49, 13, 10, 80, 13, 10], [], freshWriter, false, []⟩).2
      = .hijackedR ∧
    (finish initialPools .hijackedR 4096 64).2.1 = some .hijackedE ∧
    some FinalErr.hijackedE ≠ none := by
  refine ⟨by decide, by decide, by decide⟩

/-- C9: at end of stream, `ReadCommands` returns the terminal EOF signal
when no unconsumed bytes remain (first conjunct), and `UnexpectedEOF`
when the buffer still holds a partial command (second conjunct, for any
proper nonempty prefix of an encoded command); the engine loop turns
these reads into its EOF results (third and fourth conjuncts), and the
close path maps clean EOF to "no error" for the observer while reporting
`UnexpectedEOF` as the final error (last two conjuncts). -/
theorem C9_eof_handling :
    (readCommands [] [] = (.eofR, [], [])) ∧
    (∀ (args : List (List Nat)) (p : List Nat), args ≠ [] → p ≠ [] →
      p <+: encodeCmd args → p ≠ encodeCmd args →
      readCommands p [] = (.ueofR, p, [])) ∧
    (∀ (handler : List (List (List Nat)) → HAct) (f : Nat) (st : EState)
      (p2 : List Nat) (ch2 : List (List Nat)), st.hj = false →
      readCommands st.pending st.chunks = (.eofR, p2, ch2) →
      (engineLoop handler (f + 1) st).2 = .eofErrR) ∧
    (∀ (handler : List (List (List Nat)) → HAct) (f : Nat) (st : EState)
      (p2 : List Nat) (ch2 : List (List Nat)), st.hj = false →
      readCommands st.pending st.chunks = (.ueofR, p2, ch2) →
      (engineLoop handler (f + 1) st).2 = .ueofErrR) ∧
    (finishObs .eofErrR = none) ∧
    (finishObs .ueofErrR = some .ueofE) := by
  refine ⟨rfl, ?_, ?_, ?_, rfl, rfl⟩
  · intro args p hargs hpne hpre hne
    have hparse := parseCommands_prefix_pending hargs hpre hne
    simp only [readCommands, hparse]
    rw [if_neg (show ¬ (([] : List (List (List Nat))) ≠ []) by simp)]
    rw [if_neg hpne]
  · intro handler f st p2 ch2 hhj hread
    simp only [engineLoop, hhj, Bool.false_eq_true, if_false, hread]
  · intro handler f st p2 ch2 hhj hread
    simp only [engineLoop, hhj, Bool.false_eq_true, if_false, hread]

/-- Witness for C9: the truncated command `*1\r\n$3\r\nfo` hits end of
stream and yields `UnexpectedEOF`; an engine whose stream is exhausted at
a command boundary exits with the clean-EOF result. -/
theorem C9_eof_handling_witness :
    readCommands [42, 49, 13, 10, 36, 51, 13, 10, 102, 111] []
      = (.ueofR, [42, 49, 13, 10, 36, 51, 13, 10, 102, 111], []) ∧
    (engineLoop (fun _ => ⟨[], false, false⟩) 1 ⟨[], [], freshWriter, false, []⟩).2
      = .eofErrR := by
  constructor
  · exact C9_eof_handling.2.1 [[102, 111, 111]] [42, 49, 13, 10, 36, 51, 13, 10, 102, 111]
      (by decide) (by decide) (by decide) (by decide)
  · exact C9_eof_handling.2.2.1 (fun _ => ⟨[], false, false⟩) 0
      ⟨[], [], freshWriter, false, []⟩ [] [] rfl rfl

/-- C5 (code bug): `hijackedConn.ReadCommand` first drains the batch
parsed by the triggering read (second conjunct), but when the queue is
empty it calls itself unconditionally without reading anything
(redcon.go:430), so it never terminates: for every fuel bound the
recursion runs out of fuel with the state unchanged (first conjunct).
The claim's required behaviour — read more via the parser and retry — is
what `ReadCommandBytes` (redcon.go:412-417) does, not `ReadCommand`. -/
theorem C5_readcommand_diverges :
    (∀ (f : Nat) (st : HjState), st.cmds = [] → hjReadCommand f st = none) ∧
    (∀ (f : Nat) (st : HjState) (c : List (List Nat)) (rest : List (List (List Nat))),
      st.cmds = c :: rest →
      hjReadCommand (f + 1) st = some (c, { st with cmds := rest })) := by
  constructor
  · intro f
    induction f with
    | zero => intro st h; rfl
    | succ f ih =>
      intro st h
      simp only [hjReadCommand, h]
      exact ih st h
  · intro f st c rest h
    simp only [hjReadCommand, h]

/-- Witness for C5: with an empty queue, even 1000 recursion steps
produce nothing; with a queued command, it is popped immediately. -/
theorem C5_readcommand_diverges_witness :
    hjReadCommand 1000 ⟨[], [], []⟩ = none ∧
    hjReadCommand 1 ⟨[[[80]]], [42], []⟩ = some ([[80]], ⟨[], [42], []⟩) := by
  exact ⟨C5_readcommand_diverges.1 1000 ⟨[], [], []⟩ rfl,
    C5_readcommand_diverges.2 0 ⟨[[[80]]], [42], []⟩ [[80]] [] rfl⟩

/-! ### Buffer pools -/

/-- C6 counterexample: a read buffer of exactly the default length
(4096 bytes — the size every pooled buffer starts at) with an empty pool
satisfies the claim's condition "length not above 4096 and pool below 64
entries", yet the code does **not** return it: the release test is the
strict `len(c.rd.buf) < defaultBufLen` (redcon.go:281). -/
theorem C6_pool_counterexample :
    ¬ (((poolClose { rd := [], wrc := [] } 4096 0).rd = [4096]) ↔
        (4096 ≤ defaultBufLen ∧ ([] : List Nat).length < defaultPoolSize)) := by
  decide

/-- C6 (amended): on a non-hijack close, the read buffer (resp. write
buffer) is returned to its pool iff the pool holds fewer than 64 entries
and its length (resp. capacity) is **strictly below** 4096 bytes (first
conjunct; a buffer of exactly 4096 bytes — the default size — is
discarded); consequently, across any sequence of connection closes
starting from the freshly constructed server, no pooled buffer ever
exceeds 4096 bytes and neither pool ever exceeds 64 entries (second
conjunct). -/
theorem C6_pool_return :
    (∀ (p : Pools) (l c : Nat),
      ((poolClose p l c).rd = p.rd ++ [l] ↔
        p.rd.length < defaultPoolSize ∧ l < defaultBufLen) ∧
      ((poolClose p l c).rd = p.rd ++ [l] ∨ (poolClose p l c).rd = p.rd) ∧
      ((poolClose p l c).wrc = p.wrc ++ [c] ↔
        p.wrc.length < defaultPoolSize ∧ c < defaultBufLen) ∧
      ((poolClose p l c).wrc = p.wrc ++ [c] ∨ (poolClose p l c).wrc = p.wrc)) ∧
    (∀ events : List (HRes × Nat × Nat),
      ((events.foldl (fun p ev => (finish p ev.1 ev.2.1 ev.2.2).2.2)
          initialPools).rd.length ≤ defaultPoolSize) ∧
      (∀ x ∈ (events.foldl (fun p ev => (finish p ev.1 ev.2.1 ev.2.2).2.2)
          initialPools).rd, x ≤ defaultBufLen) ∧
      ((events.foldl (fun p ev => (finish p ev.1 ev.2.1 ev.2.2).2.2)
          initialPools).wrc.length ≤ defaultPoolSize) ∧
      (∀ x ∈ (events.foldl (fun p ev => (finish p ev.1 ev.2.1 ev.2.2).2.2)
          initialPools).wrc, x ≤ defaultBufLen)) := by
  have hstep : ∀ (p : Pools) (r : HRes) (l c : Nat),
      (p.rd.length ≤ defaultPoolSize ∧ (∀ x ∈ p.rd, x ≤ defaultBufLen) ∧
       p.wrc.length ≤ defaultPoolSize ∧ (∀ x ∈ p.wrc, x ≤ defaultBufLen)) →
      (((finish p r l c).2.2).rd.length ≤ defaultPoolSize ∧
       (∀ x ∈ ((finish p r l c).2.2).rd, x ≤ defaultBufLen) ∧
       ((finish p r l c).2.2).wrc.length ≤ defaultPoolSize ∧
       (∀ x ∈ ((finish p r l c).2.2).wrc, x ≤ defaultBufLen)) := by
    intro p r l c ⟨h1, h2, h3, h4⟩
    by_cases hr : r = .hijackedR
    · simp only [finish, hr, if_true, eq_self_iff_true]
      exact ⟨h1, h2, h3, h4⟩
    · simp only [finish, if_neg hr]
      refine ⟨?_, ?_, ?_, ?_⟩
      · by_cases hc : p.rd.length < defaultPoolSize ∧ l < defaultBufLen
        · simp only [poolClose, if_pos hc, List.length_append, List.length_cons,
            List.length_nil]
          omega
        · simp only [poolClose, if_neg hc]
          exact h1
      · intro x hx
        by_cases hc : p.rd.length < defaultPoolSize ∧ l < defaultBufLen
        · simp only [poolClose, if_pos hc, List.mem_append, List.mem_singleton] at hx
          rcases hx with hx | hx
          · exact h2 x hx
          · subst hx; omega
        · simp only [poolClose, if_neg hc] at hx
          exact h2 x hx
      · by_cases hc : p.wrc.length < defaultPoolSize ∧ c < defaultBufLen
        · simp only [poolClose, if_pos hc, List.length_append, List.length_cons,
            List.length_nil]
          omega
        · simp only [poolClose, if_neg hc]
          exact h3
      · intro x hx
        by_cases hc : p.wrc.length < defaultPoolSize ∧ c < defaultBufLen
        · simp only [poolClose, if_pos hc, List.mem_append, List.mem_singleton] at hx
          rcases hx with hx | hx
          · exact h4 x hx
          · subst hx; omega
        · simp only [poolClose, if_neg hc] at hx
          exact h4 x hx
  constructor
  · intro p l c
    refine ⟨?_, ?_, ?_, ?_⟩
    · constructor
      · intro h
        by_cases hc : p.rd.length < defaultPoolSize ∧ l < defaultBufLen
        · exact hc
        · simp only [poolClose, if_neg hc] at h
          exact absurd h (by simp)
      · intro hc
        simp [poolClose, hc]
    · by_cases hc : p.rd.length < defaultPoolSize ∧ l < defaultBufLen
      · exact Or.inl (by simp [poolClose, hc])
      · exact Or.inr (by simp [poolClose, hc])
    · constructor
      · intro h
        by_cases hc : p.wrc.length < defaultPoolSize ∧ c < defaultBufLen
        · exact hc
        · simp only [poolClose, if_neg hc] at h
          exact absurd h (by simp)
      · intro hc
        simp [poolClose, hc]
    · by_cases hc : p.wrc.length < defaultPoolSize ∧ c < defaultBufLen
      · exact Or.inl (by simp [poolClose, hc])
      · exact Or.inr (by simp [poolClose, hc])
  · have hfold : ∀ (events : List (HRes × Nat × Nat)) (p : Pools),
        (p.rd.length ≤ defaultPoolSize ∧ (∀ x ∈ p.rd, x ≤ defaultBufLen) ∧
         p.wrc.length ≤ defaultPoolSize ∧ (∀ x ∈ p.wrc, x ≤ defaultBufLen)) →
        (((events.foldl (fun q ev => (finish q ev.1 ev.2.1 ev.2.2).2.2) p).rd.length
            ≤ defaultPoolSize) ∧
         (∀ x ∈ (events.foldl (fun q ev => (finish q ev.1 ev.2.1 ev.2.2).2.2) p).rd,
            x ≤ defaultBufLen) ∧
         ((events.foldl (fun q ev => (finish q ev.1 ev.2.1 ev.2.2).2.2) p).wrc.length
            ≤ defaultPoolSize) ∧
         (∀ x ∈ (events.foldl (fun q ev => (finish q ev.1 ev.2.1 ev.2.2).2.2) p).wrc,
            x ≤ defaultBufLen)) := by
      intro events
      induction events with
      | nil => intro p hp; exact hp
      | cons ev evs ih =>
        intro p hp
        exact ih _ (hstep p ev.1 ev.2.1 ev.2.2 hp)
    intro events
    refine hfold events initialPools ?_
    refine ⟨by simp [initialPools], ?_, by simp [initialPools], by simp [initialPools]⟩
    intro x hx
    simp only [initialPools, List.mem_replicate] at hx
    omega

/-- C10: `parseInt` returns 0 with no error on an empty digit string, so
a bulk header with no digits (`$\r\n`) is accepted as a zero-length bulk
argument — `*1\r\n$\r\n\r\n` parses to one command with one empty
argument — while an empty multibulk count (`*\r\n`) is rejected with
`invalid multibulk length` because the count must be strictly positive. -/
theorem C10_empty_length_headers :
    parseInt [] = some 0 ∧
    parseCommands [42, 49, 13, 10, 36, 13, 10, 13, 10] = .ok ([[[]]], []) ∧
    parseCommands [42, 13, 10] = .error .invalidMulti := by
  exact ⟨rfl, rfl, rfl⟩

/-! ### Inline tokenizer: spaces, tokens, quotes -/

theorem ilLoop_spaces : ∀ (k : Nat) (args : List (List Nat)) (rest : List Nat),
    ilLoop args [] false false (List.replicate k 32 ++ rest)
      = ilLoop args [] false false rest := by
  intro k
  induction k with
  | zero => intro args rest; rfl
  | succ k ih =>
    intro args rest
    rw [List.replicate_succ, List.cons_append]
    simp only [ilLoop]
    simp only [Bool.false_eq_true, if_false, if_true, eq_self_iff_true]
    exact ih args rest

theorem ilLoop_token : ∀ (t : List Nat) (args : List (List Nat)) (cur rest : List Nat),
    (∀ d ∈ t, d ≠ 32 ∧ d ≠ 34) →
    ilLoop args cur false false (t ++ rest) = ilLoop args (cur ++ t) false false rest := by
  intro t
  induction t with
  | nil => intro args cur rest _; simp
  | cons d t ih =>
    intro args cur rest hd
    obtain ⟨h32, h34⟩ := hd d (by simp)
    rw [List.cons_append]
    simp only [ilLoop, Bool.false_eq_true, if_false, if_neg h32, if_neg h34]
    rw [ih args (cur ++ [d]) rest (fun x hx => hd x (by simp [hx]))]
    simp

theorem ilLoop_quoted : ∀ (s : List Nat) (args : List (List Nat)) (cur rest : List Nat),
    (∀ d ∈ s, d ≠ 34 ∧ d ≠ 92) →
    ilLoop args cur true false (s ++ rest) = ilLoop args (cur ++ s) true false rest := by
  intro s
  induction s with
  | nil => intro args cur rest _; simp
  | cons d s ih =>
    intro args cur rest hd
    obtain ⟨h34, h92⟩ := hd d (by simp)
    rw [List.cons_append]
    simp only [ilLoop, Bool.false_eq_true, if_false, if_true, if_neg h34, if_neg h92]
    rw [ih args (cur ++ [d]) rest (fun x hx => hd x (by simp [hx]))]
    simp

theorem ilLoop_unclosed : ∀ (s : List Nat) (args : List (List Nat)) (cur : List Nat)
    (esc : Bool), 34 ∉ s → ilLoop args cur true esc s = .error .unbalancedQuotes := by
  intro s
  induction s with
  | nil => intro args cur esc _; rfl
  | cons d s ih =>
    intro args cur esc hd
    simp only [List.mem_cons, not_or] at hd
    have h34 : ¬ d = 34 := fun hh => hd.1 hh.symm
    cases esc with
    | true =>
      simp only [ilLoop, if_true, eq_self_iff_true]
      exact ih _ _ false hd.2
    | false =>
      by_cases h92 : d = 92
      · simp only [ilLoop, Bool.false_eq_true, if_false, if_true, eq_self_iff_true,
          if_neg h34, if_pos h92]
        exact ih _ _ true hd.2
      · simp only [ilLoop, Bool.false_eq_true, if_false, if_true, eq_self_iff_true,
          if_neg h34, if_neg h92]
        exact ih _ _ false hd.2

theorem ilLoop_items : ∀ (items : List (List Nat × Nat)) (args : List (List Nat)),
    (∀ it ∈ items, it.1 ≠ [] ∧ ∀ d ∈ it.1, d ≠ 32 ∧ d ≠ 34) →
    ilLoop args [] false false
        ((items.map (fun it => it.1 ++ List.replicate (it.2 + 1) 32)).flatten)
      = .ok (args ++ items.map (fun it => it.1)) := by
  intro items
  induction items with
  | nil => intro args _; simp [ilLoop]
  | cons it items ih =>
    intro args hit
    obtain ⟨hne, hd⟩ := hit it (by simp)
    have hshape : ((it :: items).map (fun it => it.1 ++ List.replicate (it.2 + 1) 32)).flatten
        = it.1 ++ (32 :: (List.replicate it.2 32 ++
            ((items.map (fun it => it.1 ++ List.replicate (it.2 + 1) 32)).flatten))) := by
      simp [List.replicate_succ]
    rw [hshape, ilLoop_token it.1 args [] _ hd]
    simp only [List.nil_append, ilLoop, Bool.false_eq_true, if_false, if_true,
      eq_self_iff_true, if_neg hne]
    rw [ilLoop_spaces, ih _ (fun x hx => hit x (by simp [hx]))]
    simp

/-- C8: the inline tokenizer applies exactly the claimed quoting rules.
Conjuncts: (1) inside double quotes, an escaped byte becomes LF/CR/TAB
for `n`/`r`/`t` and is passed through literally otherwise; (2) tokens
separated, preceded and followed by arbitrary positive runs of spaces
parse to exactly those tokens — the empty unquoted tokens the extra
spaces would create are discarded; (3) leading spaces before a final
unterminated-by-space token are likewise discarded; (4)-(5) the empty
quoted token `""` is preserved as a zero-length argument, alone or after
another token; (6) an opening quote that is not at the start of an
argument, (7) a closing quote not followed by a space or end-of-line, and
(8) a quote still open at end-of-line each yield the `unbalanced quotes
in request` protocol error; (9) the full reader pipeline parses the
spec's example line `set "a b" "c\nd"\r\n` to `[set, a b, c LF d]`. -/
theorem C8_inline_quoting :
    (∀ c : Nat, parseLine [34, 92, c, 34]
      = .ok [[if c = 110 then 10 else if c = 114 then 13 else if c = 116 then 9 else c]]) ∧
    (∀ (a : Nat) (items : List (List Nat × Nat)),
      (∀ it ∈ items, it.1 ≠ [] ∧ ∀ d ∈ it.1, d ≠ 32 ∧ d ≠ 34) →
      parseLine (List.replicate a 32 ++
          (items.map (fun it => it.1 ++ List.replicate (it.2 + 1) 32)).flatten)
        = .ok (items.map (fun it => it.1))) ∧
    (∀ (a : Nat) (t : List Nat), t ≠ [] → (∀ d ∈ t, d ≠ 32 ∧ d ≠ 34) →
      parseLine (List.replicate a 32 ++ t) = .ok [t]) ∧
    (parseLine [34, 34] = .ok [[]]) ∧
    (∀ t : List Nat, t ≠ [] → (∀ d ∈ t, d ≠ 32 ∧ d ≠ 34) →
      parseLine (t ++ [32, 34, 34]) = .ok [t, []]) ∧
    (∀ (t rest : List Nat), t ≠ [] → (∀ d ∈ t, d ≠ 32 ∧ d ≠ 34) →
      parseLine (t ++ 34 :: rest) = .error .unbalancedQuotes) ∧
    (∀ (s : List Nat) (c : Nat) (rest : List Nat), (∀ d ∈ s, d ≠ 34 ∧ d ≠ 92) → c ≠ 32 →
      parseLine (34 :: (s ++ 34 :: c :: rest)) = .error .unbalancedQuotes) ∧
    (∀ s : List Nat, 34 ∉ s → parseLine (34 :: s) = .error .unbalancedQuotes) ∧
    (parseCommands [115, 101, 116, 32, 34, 97, 32, 98, 34, 32, 34, 99, 92, 110, 100, 34, 13, 10]
      = .ok ([[[115, 101, 116], [97, 32, 98], [99, 10, 100]]], [])) := by
  refine ⟨?_, ?_, ?_, rfl, ?_, ?_, ?_, ?_, rfl⟩
  · intro c
    simp [parseLine, ilLoop, escByte]
  · intro a items hit
    unfold parseLine
    rw [ilLoop_spaces, ilLoop_items items [] hit]
    simp
  · intro a t hne hd
    unfold parseLine
    rw [ilLoop_spaces]
    rw [show t = t ++ [] by simp]
    rw [ilLoop_token t [] [] [] hd]
    simp [ilLoop, hne]
  · intro t hne hd
    unfold parseLine
    rw [ilLoop_token t [] [] [32, 34, 34] hd]
    simp only [List.nil_append, ilLoop, Bool.false_eq_true, if_false, if_true,
      eq_self_iff_true, if_neg hne]
    rfl
  · intro t rest hne hd
    unfold parseLine
    rw [ilLoop_token t [] [] (34 :: rest) hd]
    simp [ilLoop, hne]
  · intro s c rest hd hc
    unfold parseLine
    have hopen : ilLoop [] [] false false (34 :: (s ++ 34 :: c :: rest))
        = ilLoop [] [] true false (s ++ 34 :: c :: rest) := by
      simp [ilLoop]
    rw [hopen, ilLoop_quoted s [] [] _ hd]
    simp [ilLoop, hc]
  · intro s hs
    unfold parseLine
    have hopen : ilLoop [] [] false false (34 :: s) = ilLoop [] [] true false s := by
      simp [ilLoop]
    rw [hopen]
    exact ilLoop_unclosed s [] [] false hs

/-- Witness for C8 at concrete inputs: the escape `\x` passes `x`
through; `  foo   bar  ` yields `[foo, bar]`; ` cmd` yields `[cmd]`;
`ab "` and `"a"b` and `"ab` are each unbalanced; `a ""` keeps the empty
argument. -/
theorem C8_inline_quoting_witness :
    parseLine [34, 92, 120, 34] = .ok [[120]] ∧
    parseLine [32, 32, 102, 111, 111, 32, 32, 32, 98, 97, 114, 32, 32] = .ok [[102, 111, 111], [98, 97, 114]] ∧
    parseLine [32, 99, 109, 100] = .ok [[99, 109, 100]] ∧
    parseLine [97, 32, 34, 34] = .ok [[97], []] ∧
    parseLine [97, 98, 34, 99] = .error .unbalancedQuotes ∧
    parseLine [34, 97, 34, 98] = .error .unbalancedQuotes ∧
    parseLine [34, 97, 98] = .error .unbalancedQuotes := by
  refine ⟨?_, ?_, ?_, ?_, ?_, ?_, ?_⟩
  · have h := C8_inline_quoting.1 120
    rw [h]
    norm_num
  · have h := C8_inline_quoting.2.1 2 [([102, 111, 111], 2), ([98, 97, 114], 1)] (by decide)
    simpa using h
  · exact C8_inline_quoting.2.2.1 1 [99, 109, 100] (by decide) (by decide)
  · exact C8_inline_quoting.2.2.2.2.1 [97] (by decide) (by decide)
  · exact C8_inline_quoting.2.2.2.2.2.1 [97, 98] [99] (by decide) (by decide)
  · exact C8_inline_quoting.2.2.2.2.2.2.1 [97] 98 [] (by decide) (by decide)
  · exact C8_inline_quoting.2.2.2.2.2.2.2.1 [97, 98] (by decide)
